import Mathlib

/-!
Shallow embedding of the annotation-threading algorithm (`buildThread` and its
helpers) from the client repository, together with theorems settling the
specification claims about it.

Modelling conventions:
* JS objects holding thread containers (`threads`) are modelled as
  insertion-ordered association lists `List (String × TNode)` with unique keys;
  JS `threads[k] = v` replaces in place or appends, matching key insertion
  order (JS additionally fronts integer-like keys, which only permutes
  iteration ties and is irrelevant to every claim).
* JS truthiness of identifier values (`undefined` and the empty string are
  falsy) is modelled by `jsTruthy : Option String → Bool`.
* The `while (grandParentID) ...` loop of `setParentID` and the recursive tree
  expansion are modelled with an explicit fuel of `map size + 1`; returning
  `none` models the JS computation failing to terminate (infinite loop or
  unbounded recursion).  The fuel is exact: a chain longer than the number of
  keys must repeat a key, and the pointer structure is deterministic, so the
  real JS loop/recursion diverges in exactly the cases where the fuel runs out.
* The source type `Annotation` is rendered as `Ann` (with field `$tag` as
  `tag`), and the `annotation` field of thread nodes as `ann`.
* JS string comparison `a < b` is rendered by `strLt` (lexicographic on
  characters), since built-in `String` order does not evaluate in the kernel.
* `visible` after the visibility pass is a JS falsy-or-truthy value
  (`undefined` when the annotation is missing); it is modelled as its
  truthiness, a `Bool`, which is all later code observes.
-/

namespace Threading

/-- The input record (source type `Annotation`): optional server `id`, local
`$tag` fallback, optional `references` list (ancestor ids, furthest first) and
a `created` timestamp. -/
structure Ann where
  id : Option String := none
  tag : String := ""
  references : Option (List String) := none
  created : String := ""
deriving Repr, DecidableEq

/-- Source `id(annotation) = annotation.id || annotation.$tag`: the `$tag`
fallback is taken when `id` is absent or the empty string (JS falsy). -/
def annId (a : Ann) : String :=
  match a.id with
  | some s => if s = "" then a.tag else s
  | none => a.tag

/-- JS truthiness of an identifier-valued expression: `undefined` and `""`
are falsy. -/
def jsTruthy : Option String → Bool
  | none => false
  | some s => s ≠ ""

/-- A thread container during construction (source `DEFAULT_THREAD_STATE`
fields that the construction phase uses; `children` holds the ids of the child
containers, in push order — JS pushes object references, and an id-keyed
lookup is exactly how those references are shared). -/
structure TNode where
  id : String
  ann : Option Ann := none
  parent : Option String := none
  collapsed : Bool := false
  visible : Bool := true
  children : List String := []
  totalChildren : Nat := 0
deriving Repr, DecidableEq

/-- The `threads` object: insertion-ordered map from id to container. -/
abbrev ThreadMap := List (String × TNode)

def tmLookup (m : ThreadMap) (k : String) : Option TNode :=
  (m.find? (fun p => p.1 = k)).map (fun p => p.2)

/-- JS `threads[k] = v`: replace in place if present, else append. -/
def tmSet (m : ThreadMap) (k : String) (v : TNode) : ThreadMap :=
  if m.any (fun p => p.1 = k) then
    m.map (fun p => if p.1 = k then (k, v) else p)
  else m ++ [(k, v)]

/-- Mutation of a single container field, e.g. `threads[k].parent = ...`. -/
def tmUpdate (m : ThreadMap) (k : String) (f : TNode → TNode) : ThreadMap :=
  m.map (fun p => if p.1 = k then (p.1, f p.2) else p)

/-- Raw parent field of the container with id `k`. -/
def rawP (m : ThreadMap) (k : String) : Option String :=
  (tmLookup m k).bind (fun n => n.parent)

/-- The cycle-check walk of `setParentID`:
`while (grandParentID) { if (grandParentID === id) return; grandParentID = threads[grandParentID].parent; }`.
`some true` = the walk met `i` (abort the link), `some false` = the walk ended
at a falsy value, `none` = the walk runs forever (fuel exhausted; with fuel
`> number of keys` a longer chain must repeat a key, hence loop). -/
def chase (m : ThreadMap) (i : String) : Option String → Nat → Option Bool
  | _, 0 => none
  | gp, fuel + 1 =>
    match gp with
    | none => some false
    | some g =>
      if g = "" then some false
      else if g = i then some true
      else chase m i (rawP m g) fuel

/-- A freshly synthesized placeholder container
(`Object.assign({}, DEFAULT_THREAD_STATE, { id: parentID, children: [] })`). -/
def placeholderNode (parentID : String) : TNode :=
  { id := parentID }

/-- Source `setParentID(threads, id, parents)`, recursing on the reversed
`parents` list (the source takes `parents[parents.length - 1]` and recurses on
`parents.slice(0, -1)`; reversing makes that recursion structural).
Returns `none` when the cycle-check walk diverges. -/
def setParentIDRev (m : ThreadMap) (i : String) : List String → Option ThreadMap
  | [] => some m -- `if (threads[id].parent || !parents.length) return;`
  | parentID :: rest =>
    match tmLookup m i with
    | none => some m -- unreachable: every caller passes an existing id
    | some node =>
      if jsTruthy node.parent then some m -- parent already assigned, keep it
      else
        -- synthesize a placeholder for a missing parent, linking it onward
        let step : Option ThreadMap :=
          match tmLookup m parentID with
          | some _ => some m
          | none => setParentIDRev (tmSet m parentID (placeholderNode parentID)) parentID rest
        match step with
        | none => none
        | some m2 =>
          match chase m2 i (rawP m2 parentID) (m2.length + 1) with
          | none => none        -- the while loop never terminates
          | some true => some m2 -- loop in the references field: abort
          | some false =>
            let m3 := tmUpdate m2 i (fun n => { n with parent := some parentID })
            some (tmUpdate m3 parentID (fun n => { n with children := n.children ++ [i] }))

def setParentID (m : ThreadMap) (i : String) (parents : List String) : Option ThreadMap :=
  setParentIDRev m i parents.reverse

/-- The id-to-container map built by the two loops of `threadAnnotations`:
index every input record, then link parents via the `references` field. -/
def buildThreadMap (anns : List Ann) : Option ThreadMap :=
  let m0 : ThreadMap :=
    anns.foldl (fun m a => tmSet m (annId a) { id := annId a, ann := some a }) []
  anns.foldl
    (fun acc a =>
      acc.bind (fun m =>
        match a.references with
        | none => some m
        | some refs => setParentID m (annId a) refs))
    (some m0)

/-- Per-node state of the recursive display tree (fields of
`DEFAULT_THREAD_STATE` plus the `depth`/`replyCount` of the final pass;
`ann` renders the source field `annotation`). -/
structure ThreadData where
  id : Option String := none
  ann : Option Ann := none
  parent : Option String := none
  collapsed : Bool := false
  visible : Bool := true
  totalChildren : Nat := 0
  highlightState : Option String := none
  depth : Int := 0
  replyCount : Nat := 0
deriving Repr, DecidableEq

/-- The recursive display tree: one node state plus child subtrees. -/
inductive Thread where
  | node : ThreadData → List Thread → Thread
deriving Repr

def Thread.data : Thread → ThreadData
  | .node d _ => d

def Thread.children : Thread → List Thread
  | .node _ cs => cs

@[simp] theorem Thread.data_node (d : ThreadData) (cs : List Thread) :
    (Thread.node d cs).data = d := rfl

@[simp] theorem Thread.children_node (d : ThreadData) (cs : List Thread) :
    (Thread.node d cs).children = cs := rfl

/-- `Option.mapM`-style traversal used by the tree expansion. -/
def optList {α : Type} : List (Option α) → Option (List α)
  | [] => some []
  | none :: _ => none
  | some a :: rest => (optList rest).map (fun l => a :: l)

def tnodeData (n : TNode) : ThreadData :=
  { id := some n.id, ann := n.ann, parent := n.parent, collapsed := n.collapsed,
    visible := n.visible, totalChildren := n.totalChildren }

/-- Expand the container with id `k` into a recursive tree, following the
`children` references, with a recursion-depth fuel.  `none` models the JS
recursion never bottoming out (a cycle among the shared containers).
Defined through `Nat.rec` so that it evaluates in the kernel. -/
def toTree (m : ThreadMap) (fuel : Nat) : String → Option Thread :=
  Nat.rec (motive := fun _ => String → Option Thread)
    (fun _ => none)
    (fun _ ih k =>
      match tmLookup m k with
      | none => none -- unreachable: children ids are always keys
      | some n => (optList (n.children.map ih)).map (fun cs => .node (tnodeData n) cs))
    fuel

/-- Mark parentless containers as collapsed (`threads[id].collapsed = true`
for the roots, done while collecting them). -/
def markCollapsed (m : ThreadMap) : ThreadMap :=
  m.map (fun p =>
    if jsTruthy p.2.parent then p else (p.1, { p.2 with collapsed := true }))

/-- Ids of the containers that have no (truthy) parent, in map order. -/
def rootIds (m : ThreadMap) : List String :=
  (m.filter (fun p => !jsTruthy p.2.parent)).map (fun p => p.1)

/-- Source `threadAnnotations(annotations)`: build the id map, link parents,
mark parentless containers collapsed, collect them as children of a synthetic
root, and read the shared containers off as a recursive tree.  `none` models
non-termination of the JS code. -/
def threadAnns (anns : List Ann) : Option Thread :=
  (buildThreadMap anns).bind (fun m1 =>
    let m2 := markCollapsed m1
    (optList ((rootIds m2).map (toTree m2 (m2.length + 1)))).map (fun roots =>
      .node { id := none, ann := none, parent := none, collapsed := false,
              visible := true, totalChildren := roots.length } roots))

/-- JS string `<` (lexicographic character comparison), evaluable in the
kernel. -/
def strLtAux : List Char → List Char → Bool
  | [], [] => false
  | [], _ :: _ => true
  | _ :: _, [] => false
  | a :: as, b :: bs =>
    if a.toNat < b.toNat then true
    else if b.toNat < a.toNat then false
    else strLtAux as bs

def strLt (a b : String) : Bool := strLtAux a.data b.data

/-- JS `a.id < b.id` on two input records: string comparison when both ids are
strings, false otherwise (JS relational comparison with `undefined` is false). -/
def defaultSortCompareFn (a b : Ann) : Bool :=
  match a.id, b.id with
  | some x, some y => strLt x y
  | _, _ => false

/-- JS `a.created < b.created`. -/
def defaultReplySortCompareFn (a b : Ann) : Bool :=
  strLt a.created b.created

/-- The options record of `buildThread`, already merged with `defaultOpts`
(the JS `Object.assign({}, defaultOpts, opts)` step); absent functions are
`none`. -/
structure Options where
  selected : List String := []
  forceVisible : Option (List String) := none
  filterFn : Option (Ann → Bool) := none
  threadFilterFn : Option (Thread → Bool) := none
  expanded : List (String × Bool) := []
  highlighted : List String := []
  sortCompareFn : Ann → Ann → Bool := defaultSortCompareFn
  replySortCompareFn : Ann → Ann → Bool := defaultReplySortCompareFn

/-- JS property key for a thread id (`undefined` stringifies to "undefined"
when used as an object key or compared by `indexOf` after `toString`). -/
def jsKey : Option String → String
  | some s => s
  | none => "undefined"

mutual
/-- Source `mapThread(thread, mapFn)`: copy of the tree with every node
transformed; the transform sees the node (with its original children) and its
field values are kept except `children`, which is the recursively mapped
original children. -/
def mapThread (f : Thread → Thread) : Thread → Thread
  | .node d cs => .node (f (.node d cs)).data (mapThreadList f cs)
def mapThreadList (f : Thread → Thread) : List Thread → List Thread
  | [] => []
  | c :: cs => mapThread f c :: mapThreadList f cs
end

mutual
/-- Source `hasVisibleChildren(thread)`. -/
def hasVisibleChildren : Thread → Bool
  | .node _ cs => hasVisibleChildrenList cs
def hasVisibleChildrenList : List Thread → Bool
  | [] => false
  | c :: cs => (c.data.visible || hasVisibleChildren c) || hasVisibleChildrenList cs
end

/-- Source `shouldShowThread(annotation)` closure inside `buildThread`. -/
def shouldShowThread (opts : Options) (a : Ann) : Bool :=
  if (match opts.forceVisible with
      | some fv => fv.contains (annId a)
      | none => false) then true
  else
    match opts.filterFn with
    | some f => f a
    | none => true

/-- The node transform of the visibility/highlight pass of `buildThread`. -/
def visTransform (opts : Options) (t : Thread) : Thread :=
  let d := t.data
  let highlightState : Option String :=
    if opts.highlighted.length > 0 then
      if d.ann.isSome && (match d.id with
          | some i => opts.highlighted.contains i
          | none => false)
      then some "highlight" else some "dim"
    else none
  .node { d with
          highlightState := highlightState,
          visible := d.visible && (match d.ann with
            | some a => shouldShowThread opts a
            | none => false) }
    t.children

/-- The node transform of the expansion pass of `buildThread`
(`hasUnfilteredChildren = opts.filterFn && hasVisibleChildren(thread)`). -/
def expTransform (opts : Options) (t : Thread) : Thread :=
  match (opts.expanded.find? (fun p => p.1 = jsKey t.data.id)).map (fun p => p.2) with
  | some b => .node { t.data with collapsed := !b } t.children
  | none =>
    .node { t.data with
            collapsed := t.data.collapsed && !(opts.filterFn.isSome && hasVisibleChildren t) }
      t.children

/-- The comparison callback that source `sort(threads, compareFn)` passes to
`Array.prototype.sort`: containers with no record sort to the top, otherwise
the strict less-than comparator decides. -/
def threadCmp (cmp : Ann → Ann → Bool) (a b : Thread) : Int :=
  match a.data.ann, b.data.ann with
  | none, none => 0
  | none, some _ => -1
  | some _, none => 1
  | some x, some y => if cmp x y then -1 else if cmp y x then 1 else 0

/-- The non-strict order induced by the sort callback. -/
def threadLE (cmp : Ann → Ann → Bool) (a b : Thread) : Bool :=
  threadCmp cmp a b ≤ 0

/-- Stable insertion into a sorted list (the engine sort is stable per the
JS specification; a stable insertion sort realizes the same result). -/
def jsInsert {α : Type} (le : α → α → Bool) (x : α) : List α → List α
  | [] => [x]
  | y :: ys => if le x y then x :: y :: ys else y :: jsInsert le x ys

/-- Stable sort of a list of threads by the comparator-induced order;
models source `sort(threads, compareFn)` (`threads.slice().sort(...)`). -/
def jsSortList {α : Type} (le : α → α → Bool) : List α → List α
  | [] => []
  | x :: xs => jsInsert le x (jsSortList le xs)

mutual
/-- Source `sortThread(thread, compareFn, replyCompareFn)`: sort the children
with `compareFn` after recursively sorting every deeper level with
`replyCompareFn`. -/
def sortThread (cmp rcmp : Ann → Ann → Bool) : Thread → Thread
  | .node d cs => .node d (jsSortList (threadLE cmp) (sortThreadList rcmp cs))
def sortThreadList (rcmp : Ann → Ann → Bool) : List Thread → List Thread
  | [] => []
  | c :: cs => sortThread rcmp rcmp c :: sortThreadList rcmp cs
end

mutual
/-- Source `countRepliesAndDepth(thread, depth)`. -/
def countRepliesAndDepth : Thread → Int → Thread
  | .node d cs, depth =>
    let children := countRepliesAndDepthList cs (depth + 1)
    .node { d with
            depth := depth,
            replyCount := children.foldl (fun total child => total + 1 + child.data.replyCount) 0 }
      children
def countRepliesAndDepthList : List Thread → Int → List Thread
  | [], _ => []
  | c :: cs, depth => countRepliesAndDepth c depth :: countRepliesAndDepthList cs depth
end

/-- Selection restriction of top-level threads (`opts.selected`). -/
def passSelection (opts : Options) (thread : Thread) : Thread :=
  if opts.selected.length > 0 then
    .node thread.data
      (thread.children.filter (fun child => opts.selected.contains (jsKey child.data.id)))
  else thread

/-- Removal of top-level threads which contain no visible annotations. -/
def passPrune (thread : Thread) : Thread :=
  .node thread.data
    (thread.children.filter (fun child => child.data.visible || hasVisibleChildren child))

/-- The `threadFilterFn` filter on top-level threads. -/
def passThreadFilter (opts : Options) (thread : Thread) : Thread :=
  match opts.threadFilterFn with
  | some f => .node thread.data (thread.children.filter f)
  | none => thread

/-- Source `buildThread(annotations, opts)` (with `opts` already merged over
`defaultOpts`).  `none` models the JS call failing to terminate. -/
def buildThread (anns : List Ann) (opts : Options) : Option Thread :=
  (threadAnns anns).map (fun thread =>
    countRepliesAndDepth
      (sortThread opts.sortCompareFn opts.replySortCompareFn
        (passThreadFilter opts
          (passPrune
            (mapThread (expTransform opts)
              (mapThread (visTransform opts)
                (passSelection opts thread))))))
      (-1))

/-! ### Observation helpers over the display tree -/

/-- Subtree at a child-index path (`[]` is the tree itself). -/
def subtreeAt : Thread → List Nat → Option Thread
  | t, [] => some t
  | .node _ cs, idx :: p =>
    match cs.get? idx with
    | none => none
    | some c => subtreeAt c p

mutual
/-- Ids of all nodes of a tree, root first (nodes lacking an id, i.e. the
synthetic root, contribute nothing). -/
def treeIds : Thread → List String
  | .node d cs => (match d.id with | some i => [i] | none => []) ++ treeIdsList cs
def treeIdsList : List Thread → List String
  | [] => []
  | c :: cs => treeIds c ++ treeIdsList cs
end

mutual
/-- All node states of a tree, root first. -/
def treeDatas : Thread → List ThreadData
  | .node d cs => d :: treeDatasList cs
def treeDatasList : List Thread → List ThreadData
  | [] => []
  | c :: cs => treeDatas c ++ treeDatasList cs
end

mutual
/-- All subtrees of a tree, the tree itself first. -/
def subtrees : Thread → List Thread
  | .node d cs => .node d cs :: subtreesList cs
def subtreesList : List Thread → List Thread
  | [] => []
  | c :: cs => subtrees c ++ subtreesList cs
end

mutual
/-- Total number of descendants of the root of a tree. -/
def numDesc : Thread → Nat
  | .node _ cs => numDescList cs
def numDescList : List Thread → Nat
  | [] => 0
  | c :: cs => 1 + numDesc c + numDescList cs
end

mutual
/-- `ancOk seen t`: walking down the tree, no node id recurs among the ids of
its strict ancestors (`seen`); in particular no node is its own ancestor. -/
def ancOk (seen : List String) : Thread → Bool
  | .node d cs =>
    (match d.id with | some i => !seen.contains i | none => true) &&
      ancOkList ((match d.id with | some i => [i] | none => []) ++ seen) cs
def ancOkList (seen : List String) : List Thread → Bool
  | [] => true
  | c :: cs => ancOk seen c && ancOkList seen cs
end

/-! ### Shared lemmas: list forms of the mutual definitions, tree induction -/

theorem mapThreadList_eq (f : Thread → Thread) (cs : List Thread) :
    mapThreadList f cs = cs.map (mapThread f) := by
  induction cs with
  | nil => rfl
  | cons c cs ih => simp [mapThreadList, ih]

theorem sortThreadList_eq (rcmp : Ann → Ann → Bool) (cs : List Thread) :
    sortThreadList rcmp cs = cs.map (sortThread rcmp rcmp) := by
  induction cs with
  | nil => rfl
  | cons c cs ih => simp [sortThreadList, ih]

theorem countRepliesAndDepthList_eq (cs : List Thread) (d : Int) :
    countRepliesAndDepthList cs d = cs.map (fun c => countRepliesAndDepth c d) := by
  induction cs with
  | nil => rfl
  | cons c cs ih => simp [countRepliesAndDepthList, ih]

theorem treeIdsList_eq (cs : List Thread) :
    treeIdsList cs = (cs.map treeIds).flatten := by
  induction cs with
  | nil => rfl
  | cons c cs ih => simp [treeIdsList, ih]

theorem treeDatasList_eq (cs : List Thread) :
    treeDatasList cs = (cs.map treeDatas).flatten := by
  induction cs with
  | nil => rfl
  | cons c cs ih => simp [treeDatasList, ih]

theorem subtreesList_eq (cs : List Thread) :
    subtreesList cs = (cs.map subtrees).flatten := by
  induction cs with
  | nil => rfl
  | cons c cs ih => simp [subtreesList, ih]

theorem numDescList_eq (cs : List Thread) :
    numDescList cs = (cs.map (fun c => 1 + numDesc c)).sum := by
  induction cs with
  | nil => rfl
  | cons c cs ih => simp [numDescList, ih]

theorem hasVisibleChildrenList_eq (cs : List Thread) :
    hasVisibleChildrenList cs = cs.any (fun c => c.data.visible || hasVisibleChildren c) := by
  induction cs with
  | nil => rfl
  | cons c cs ih => simp [hasVisibleChildrenList, ih, List.any_cons]

theorem ancOkList_eq (seen : List String) (cs : List Thread) :
    ancOkList seen cs = cs.all (ancOk seen) := by
  induction cs with
  | nil => rfl
  | cons c cs ih => simp [ancOkList, ih, List.all_cons]

mutual
/-- Structural induction over the nested tree type. -/
theorem threadInd {P : Thread → Prop}
    (h : ∀ (d : ThreadData) (cs : List Thread), (∀ c ∈ cs, P c) → P (.node d cs)) :
    ∀ t, P t
  | .node d cs => h d cs (fun c hc => threadIndList h cs c hc)
theorem threadIndList {P : Thread → Prop}
    (h : ∀ (d : ThreadData) (cs : List Thread), (∀ c ∈ cs, P c) → P (.node d cs)) :
    ∀ (cs : List Thread), ∀ c ∈ cs, P c
  | c' :: cs => fun c hc => by
    rcases List.mem_cons.mp hc with h1 | h2
    · exact h1 ▸ threadInd h c'
    · exact threadIndList h cs c h2
  | [] => fun c hc => absurd hc (List.not_mem_nil c)
end

theorem Thread.eta (t : Thread) : Thread.node t.data t.children = t := by
  cases t; rfl

/-! ### The depth / replyCount pass (claim C6) -/

theorem countRepliesAndDepth_data (d0 : ThreadData) (cs : List Thread) (d : Int) :
    countRepliesAndDepth (.node d0 cs) d =
      .node { d0 with
              depth := d,
              replyCount := (countRepliesAndDepthList cs (d + 1)).foldl
                (fun total child => total + 1 + child.data.replyCount) 0 }
        (countRepliesAndDepthList cs (d + 1)) := by
  rfl

theorem subtreeAt_count (p : List Nat) (t : Thread) (d : Int) :
    subtreeAt (countRepliesAndDepth t d) p =
      (subtreeAt t p).map (fun s => countRepliesAndDepth s (d + p.length)) := by
  induction p generalizing t d with
  | nil => simp [subtreeAt]
  | cons i rest ih =>
    cases t with
    | node d0 cs =>
      rw [countRepliesAndDepth_data]
      simp only [subtreeAt, countRepliesAndDepthList_eq, List.get?_eq_getElem?,
        List.getElem?_map]
      cases hc : cs[i]? with
      | none => rfl
      | some c =>
        simp only [Option.map_some']
        rw [ih]
        simp only [List.length_cons]
        congr 2
        push_cast
        ring_nf

theorem count_depth (t : Thread) (d : Int) :
    (countRepliesAndDepth t d).data.depth = d := by
  cases t with
  | node d0 cs => rw [countRepliesAndDepth_data]; rfl

theorem foldl_reply_sum (cs : List Thread) (e : Int)
    (h : ∀ c ∈ cs, (countRepliesAndDepth c e).data.replyCount = numDesc c) :
    ∀ acc : Nat,
      (cs.map (fun c => countRepliesAndDepth c e)).foldl
        (fun total child => total + 1 + child.data.replyCount) acc = acc + numDescList cs := by
  induction cs with
  | nil => intro acc; simp [numDescList]
  | cons c cs ih =>
    intro acc
    simp only [List.map_cons, List.foldl_cons]
    rw [h c (List.mem_cons_self c cs),
      ih (fun c' hc' => h c' (List.mem_cons_of_mem c hc')), numDescList]
    omega

@[simp] theorem numDesc_node (d : ThreadData) (cs : List Thread) :
    numDesc (.node d cs) = numDescList cs := rfl

theorem count_replyCount (t : Thread) :
    ∀ d : Int, (countRepliesAndDepth t d).data.replyCount = numDesc t := by
  induction t using threadInd with
  | h d0 cs ih =>
    intro d
    rw [countRepliesAndDepth_data, Thread.data_node]
    change (countRepliesAndDepthList cs (d + 1)).foldl
      (fun total child => total + 1 + child.data.replyCount) 0 = numDesc (Thread.node d0 cs)
    rw [countRepliesAndDepthList_eq, numDesc_node,
      foldl_reply_sum cs (d + 1) (fun c hc => ih c hc (d + 1)) 0]
    omega

theorem count_numDesc (t : Thread) :
    ∀ d : Int, numDesc (countRepliesAndDepth t d) = numDesc t := by
  induction t using threadInd with
  | h d0 cs ih =>
    intro d
    rw [countRepliesAndDepth_data]
    simp only [numDesc_node, countRepliesAndDepthList_eq, numDescList_eq, List.map_map]
    congr 1
    exact List.map_congr_left (fun c hc => by simp [Function.comp, ih c hc])

/-- Unfold `buildThread` into the pass pipeline over the construction output. -/
theorem buildThread_eq_pipeline (anns : List Ann) (opts : Options) (t : Thread)
    (h : buildThread anns opts = some t) :
    ∃ t0, threadAnns anns = some t0 ∧
      t = countRepliesAndDepth
            (sortThread opts.sortCompareFn opts.replySortCompareFn
              (passThreadFilter opts
                (passPrune
                  (mapThread (expTransform opts)
                    (mapThread (visTransform opts)
                      (passSelection opts t0))))))
            (-1) := by
  unfold buildThread at h
  cases h0 : threadAnns anns with
  | none => rw [h0] at h; exact absurd h (by simp)
  | some t0 =>
    refine ⟨t0, rfl, ?_⟩
    rw [h0] at h
    simp only [Option.map_some', Option.some.injEq] at h
    exact h.symm

/-- **C6** (`functional_correctness`, confirmed): in the tree returned by
`buildThread`, every node reachable from the root has `depth` equal to its
path length from the root minus one (the root has depth `-1`), and
`replyCount` equal to the total number of its descendants. -/
theorem C6_depth_replyCount (anns : List Ann) (opts : Options) (t : Thread)
    (h : buildThread anns opts = some t) :
    ∀ (p : List Nat) (s : Thread), subtreeAt t p = some s →
      s.data.depth = (p.length : Int) - 1 ∧ s.data.replyCount = numDesc s := by
  obtain ⟨t0, -, rfl⟩ := buildThread_eq_pipeline anns opts t h
  intro p s hp
  rw [subtreeAt_count] at hp
  obtain ⟨s', hs', rfl⟩ := Option.map_eq_some'.mp hp
  refine ⟨?_, ?_⟩
  · rw [count_depth]; omega
  · rw [count_replyCount, ← count_numDesc s' (-1 + p.length)]

def annP : Ann := { id := some "p" }

/-- The value of `buildThread [annP] {}`. -/
def treePChild : Thread :=
  .node { id := some "p", ann := some annP, parent := none, collapsed := true,
          visible := true, totalChildren := 0, highlightState := none, depth := 0,
          replyCount := 0 } []

def treeP : Thread :=
  .node { id := none, ann := none, parent := none, collapsed := false, visible := false,
          totalChildren := 1, highlightState := none, depth := -1, replyCount := 1 }
    [treePChild]

/-- Witness for C6 at a concrete input. -/
theorem C6_depth_replyCount_witness :
    (treeP.data.depth = (([] : List Nat).length : Int) - 1 ∧
        treeP.data.replyCount = numDesc treeP) ∧
      (treePChild.data.depth = (([0] : List Nat).length : Int) - 1 ∧
        treePChild.data.replyCount = numDesc treePChild) :=
  ⟨C6_depth_replyCount [annP] {} treeP rfl [] treeP rfl,
   C6_depth_replyCount [annP] {} treeP rfl [0] treePChild rfl⟩

/-! ### The visibility / highlight pass (claims C4, C7, C10) -/

theorem mapThread_node (f : Thread → Thread) (d : ThreadData) (cs : List Thread) :
    mapThread f (.node d cs) = .node (f (.node d cs)).data (cs.map (mapThread f)) := by
  rw [mapThread, mapThreadList_eq]

/-- `mapThread` acts node-locally, so it commutes with taking subtrees. -/
theorem subtreeAt_mapThread (f : Thread → Thread) (p : List Nat) (t : Thread) :
    subtreeAt (mapThread f t) p = (subtreeAt t p).map (mapThread f) := by
  induction p generalizing t with
  | nil => simp [subtreeAt]
  | cons i rest ih =>
    cases t with
    | node d0 cs =>
      rw [mapThread_node]
      simp only [subtreeAt, List.get?_eq_getElem?, List.getElem?_map]
      cases hc : cs[i]? with
      | none => rfl
      | some c => simp only [Option.map_some']; exact ih c

theorem mapThread_data (f : Thread → Thread) (t : Thread) :
    (mapThread f t).data = (f t).data := by
  cases t with
  | node d cs => rw [mapThread_node, Thread.data_node]

theorem visTransform_visible (opts : Options) (s : Thread) :
    (visTransform opts s).data.visible =
      (s.data.visible && s.data.ann.isSome &&
        ((s.data.ann.map (shouldShowThread opts)).getD true)) := by
  cases s with
  | node d cs =>
    simp only [visTransform, Thread.data_node]
    cases d.ann <;> simp

/-- **C4** (`functional_correctness`, confirmed): the visibility pass of
`buildThread` sets every node's `visible` to
`priorVisible && hasAnnotation && shouldShow(annotation)`, where
`shouldShow` is true for ids in `forceVisible`, false when `filterFn` rejects
the record, and true otherwise; consequently an annotation rejected by
`filterFn` is visible exactly when its id is force-visible (checked on two
concrete `buildThread` runs). -/
theorem C4_visibility_pass (opts : Options) (t : Thread) (p : List Nat) (s : Thread)
    (h : subtreeAt t p = some s) :
    ((subtreeAt (mapThread (visTransform opts) t) p).map (fun x => x.data.visible) =
        some (s.data.visible && s.data.ann.isSome &&
          ((s.data.ann.map (shouldShowThread opts)).getD true))) ∧
      (∀ (o : Options) (a : Ann) (fv : List String),
        o.forceVisible = some fv → fv.contains (annId a) = true →
          shouldShowThread o a = true) ∧
      (∀ (o : Options) (a : Ann) (f : Ann → Bool),
        o.filterFn = some f → f a = false →
          (match o.forceVisible with
           | some fv => fv.contains (annId a)
           | none => false) = false →
          shouldShowThread o a = false) ∧
      (∀ (o : Options) (a : Ann),
        o.filterFn = none →
          (match o.forceVisible with
           | some fv => fv.contains (annId a)
           | none => false) = false →
          shouldShowThread o a = true) ∧
      ((buildThread [{ id := some "p" }, { id := some "x", references := some ["p"] }]
          { filterFn := some (fun a => annId a ≠ "x"), forceVisible := some ["x"] }).map
        (fun tr => (subtreeAt tr [0, 0]).map (fun x => x.data.visible)) = some (some true)) ∧
      ((buildThread [{ id := some "p" }, { id := some "x", references := some ["p"] }]
          { filterFn := some (fun a => annId a ≠ "x") }).map
        (fun tr => (subtreeAt tr [0, 0]).map (fun x => x.data.visible)) = some (some false)) := by
  refine ⟨?_, ?_, ?_, ?_, by decide, by decide⟩
  · rw [subtreeAt_mapThread, h, Option.map_some', Option.map_some', mapThread_data,
      visTransform_visible]
  · intro o a fv hfv hmem
    simp at hmem
    simp [shouldShowThread, hfv, hmem]
  · intro o a f hf ha hforce
    simp only [shouldShowThread, hforce, hf]
    simp [ha]
  · intro o a hf hforce
    simp [shouldShowThread, hforce, hf]

/-- Witness for C4 at a concrete input. -/
theorem C4_visibility_pass_witness :
    (subtreeAt (mapThread (visTransform { filterFn := some (fun a => annId a ≠ "x") }) treeP)
        []).map (fun x => x.data.visible) =
      some (treeP.data.visible && treeP.data.ann.isSome &&
        ((treeP.data.ann.map
            (shouldShowThread { filterFn := some (fun a => annId a ≠ "x") })).getD true)) :=
  (C4_visibility_pass { filterFn := some (fun a => annId a ≠ "x") } treeP [] treeP rfl).1

/-! ### Association-map lemmas -/

theorem tmLookup_nil (k : String) : tmLookup [] k = none := rfl

theorem tmLookup_cons (p : String × TNode) (m : ThreadMap) (k : String) :
    tmLookup (p :: m) k = if p.1 = k then some p.2 else tmLookup m k := by
  simp only [tmLookup, List.find?]
  by_cases h : p.1 = k <;> simp [h]

theorem tmLookup_eq_none_of_not_any (m : ThreadMap) (k : String)
    (h : ¬ m.any (fun p => p.1 = k) = true) : tmLookup m k = none := by
  induction m with
  | nil => rfl
  | cons p m ih =>
    rw [tmLookup_cons]
    simp only [List.any_cons, Bool.or_eq_true, not_or] at h
    rw [if_neg (by simpa using h.1)]
    exact ih h.2

theorem tmLookup_append_right (m rest : ThreadMap) (k : String)
    (h : tmLookup m k = none) : tmLookup (m ++ rest) k = tmLookup rest k := by
  induction m with
  | nil => rfl
  | cons p m ih =>
    rw [tmLookup_cons] at h
    by_cases hp : p.1 = k
    · simp [hp] at h
    · rw [List.cons_append, tmLookup_cons, if_neg hp]
      exact ih (by simpa [hp] using h)

theorem tmLookup_append_left (m rest : ThreadMap) (k : String) (n : TNode)
    (h : tmLookup m k = some n) : tmLookup (m ++ rest) k = some n := by
  induction m with
  | nil => simp [tmLookup_nil] at h
  | cons p m ih =>
    rw [tmLookup_cons] at h
    rw [List.cons_append, tmLookup_cons]
    by_cases hp : p.1 = k
    · simpa [hp] using h
    · rw [if_neg hp]
      exact ih (by simpa [hp] using h)

theorem tmLookup_replace_ne (m : ThreadMap) (k : String) (v : TNode) (k' : String)
    (h : ¬ k = k') :
    tmLookup (m.map (fun p => if p.1 = k then (k, v) else p)) k' = tmLookup m k' := by
  induction m with
  | nil => rfl
  | cons p m ih =>
    simp only [List.map_cons]
    by_cases hp : p.1 = k
    · rw [if_pos hp, tmLookup_cons, tmLookup_cons]
      have hp' : ¬ p.1 = k' := fun h2 => h (hp ▸ h2)
      rw [if_neg h, if_neg hp']
      exact ih
    · rw [if_neg hp, tmLookup_cons, tmLookup_cons]
      by_cases hp' : p.1 = k'
      · rw [if_pos hp', if_pos hp']
      · rw [if_neg hp', if_neg hp']
        exact ih

theorem tmLookup_replace_eq (m : ThreadMap) (k : String) (v : TNode)
    (hmem : m.any (fun p => p.1 = k) = true) :
    tmLookup (m.map (fun p => if p.1 = k then (k, v) else p)) k = some v := by
  induction m with
  | nil => simp at hmem
  | cons p m ih =>
    simp only [List.map_cons]
    by_cases hp : p.1 = k
    · rw [if_pos hp, tmLookup_cons, if_pos rfl]
    · rw [if_neg hp, tmLookup_cons, if_neg hp]
      exact ih (by simpa [List.any_cons, hp] using hmem)

theorem tmLookup_tmSet (m : ThreadMap) (k : String) (v : TNode) (k' : String) :
    tmLookup (tmSet m k v) k' = if k = k' then some v else tmLookup m k' := by
  unfold tmSet
  by_cases hmem : m.any (fun p => p.1 = k) = true
  · rw [if_pos hmem]
    by_cases hk : k = k'
    · subst hk
      rw [if_pos rfl]
      exact tmLookup_replace_eq m k v hmem
    · rw [if_neg hk]
      exact tmLookup_replace_ne m k v k' hk
  · rw [if_neg (by simpa using hmem)]
    have hnone := tmLookup_eq_none_of_not_any m k hmem
    by_cases hk : k = k'
    · subst hk
      rw [if_pos rfl, tmLookup_append_right m _ k hnone, tmLookup_cons]
      simp
    · rw [if_neg hk]
      cases hlk : tmLookup m k' with
      | some n => exact tmLookup_append_left m _ k' n hlk
      | none =>
        rw [tmLookup_append_right m _ k' hlk, tmLookup_cons, if_neg hk, tmLookup_nil]

theorem tmLookup_tmUpdate (m : ThreadMap) (k : String) (f : TNode → TNode) (k' : String) :
    tmLookup (tmUpdate m k f) k' =
      if k = k' then (tmLookup m k).map f else tmLookup m k' := by
  induction m with
  | nil => by_cases hk : k = k' <;> simp [tmUpdate, tmLookup_nil, hk]
  | cons p m ih =>
    unfold tmUpdate at ih ⊢
    simp only [List.map_cons]
    by_cases hp : p.1 = k <;> by_cases hk : k = k' <;> by_cases hp2 : p.1 = k' <;>
      simp_all [tmLookup_cons]

theorem tmUpdate_length (m : ThreadMap) (k : String) (f : TNode → TNode) :
    (tmUpdate m k f).length = m.length := by
  simp [tmUpdate]

theorem tmSet_length (m : ThreadMap) (k : String) (v : TNode) :
    m.length ≤ (tmSet m k v).length := by
  unfold tmSet
  by_cases hmem : m.any (fun p => p.1 = k) <;> simp [hmem]

/-- Keys of the map. -/
def tmKeys (m : ThreadMap) : List String := m.map (fun p => p.1)

theorem tmKeys_tmUpdate (m : ThreadMap) (k : String) (f : TNode → TNode) :
    tmKeys (tmUpdate m k f) = tmKeys m := by
  unfold tmKeys tmUpdate
  rw [List.map_map]
  exact List.map_congr_left (fun p _ => by by_cases hp : p.1 = k <;> simp [hp])

theorem tmKeys_cons (p : String × TNode) (m : ThreadMap) :
    tmKeys (p :: m) = p.1 :: tmKeys m := rfl

theorem tmLookup_mem_keys (m : ThreadMap) (k : String) (n : TNode)
    (h : tmLookup m k = some n) : k ∈ tmKeys m := by
  induction m with
  | nil => simp [tmLookup_nil] at h
  | cons p m ih =>
    rw [tmLookup_cons] at h
    rw [tmKeys_cons]
    by_cases hp : p.1 = k
    · exact hp ▸ List.mem_cons_self _ _
    · simp only [hp, if_false] at h
      exact List.mem_cons_of_mem _ (ih h)

theorem tmLookup_of_mem_keys (m : ThreadMap) (k : String) (h : k ∈ tmKeys m) :
    ∃ n, tmLookup m k = some n := by
  induction m with
  | nil => simp [tmKeys] at h
  | cons p m ih =>
    rw [tmKeys_cons] at h
    rw [tmLookup_cons]
    by_cases hp : p.1 = k
    · exact ⟨p.2, by simp [hp]⟩
    · simp only [hp, if_false]
      exact ih (by rcases List.mem_cons.mp h with h1 | h2; exacts [absurd h1.symm hp, h2])

theorem tmKeys_tmSet_new (m : ThreadMap) (k : String) (v : TNode)
    (h : tmLookup m k = none) : tmKeys (tmSet m k v) = tmKeys m ++ [k] := by
  have hany : m.any (fun p => p.1 = k) = false := by
    rw [Bool.eq_false_iff]
    intro hc
    obtain ⟨p, hp, he⟩ := List.any_eq_true.mp hc
    have he' : p.1 = k := of_decide_eq_true he
    obtain ⟨n, hn⟩ :=
      tmLookup_of_mem_keys m k (he' ▸ List.mem_map_of_mem (fun p => p.1) hp)
    rw [hn] at h
    cases h
  unfold tmSet
  simp [hany, tmKeys]

/-! ### Node-membership tracking through the passes (claims C7, C8, C10) -/

theorem treeDatas_node (d : ThreadData) (cs : List Thread) :
    treeDatas (.node d cs) = d :: treeDatasList cs := rfl

theorem subtrees_node (d : ThreadData) (cs : List Thread) :
    subtrees (.node d cs) = .node d cs :: subtreesList cs := rfl

theorem mem_treeDatasList_iff (cs : List Thread) (d : ThreadData) :
    d ∈ treeDatasList cs ↔ ∃ c ∈ cs, d ∈ treeDatas c := by
  rw [treeDatasList_eq, List.mem_flatten]
  constructor
  · rintro ⟨l, hl, hd⟩
    obtain ⟨c, hc, rfl⟩ := List.mem_map.mp hl
    exact ⟨c, hc, hd⟩
  · rintro ⟨c, hc, hd⟩
    exact ⟨treeDatas c, List.mem_map_of_mem treeDatas hc, hd⟩

theorem mem_subtreesList_iff (cs : List Thread) (s : Thread) :
    s ∈ subtreesList cs ↔ ∃ c ∈ cs, s ∈ subtrees c := by
  rw [subtreesList_eq, List.mem_flatten]
  constructor
  · rintro ⟨l, hl, hd⟩
    obtain ⟨c, hc, rfl⟩ := List.mem_map.mp hl
    exact ⟨c, hc, hd⟩
  · rintro ⟨c, hc, hd⟩
    exact ⟨subtrees c, List.mem_map_of_mem subtrees hc, hd⟩

theorem treeDatas_eq_subtrees_map (t : Thread) :
    treeDatas t = (subtrees t).map Thread.data := by
  induction t using threadInd with
  | h d cs ih =>
    rw [treeDatas_node, subtrees_node, List.map_cons, Thread.data_node,
      treeDatasList_eq, subtreesList_eq, List.map_flatten, List.map_map]
    congr 1
    congr 1
    exact List.map_congr_left (fun c hc => by rw [Function.comp_apply, ih c hc])

theorem treeDatas_mapThread (f : Thread → Thread) (t : Thread) :
    treeDatas (mapThread f t) = (subtrees t).map (fun s => (f s).data) := by
  induction t using threadInd with
  | h d cs ih =>
    rw [mapThread_node, treeDatas_node, subtrees_node, List.map_cons,
      treeDatasList_eq, subtreesList_eq, List.map_flatten, List.map_map, List.map_map]
    congr 1
    congr 1
    exact List.map_congr_left (fun c hc => by
      rw [Function.comp_apply, Function.comp_apply, ih c hc])

theorem subtrees_mapThread (f : Thread → Thread) (t : Thread) :
    subtrees (mapThread f t) = (subtrees t).map (mapThread f) := by
  induction t using threadInd with
  | h d cs ih =>
    rw [mapThread_node, subtrees_node, subtrees_node, List.map_cons, ← mapThread_node,
      subtreesList_eq, subtreesList_eq, List.map_flatten, List.map_map, List.map_map]
    congr 1
    congr 1
    exact List.map_congr_left (fun c hc => by
      rw [Function.comp_apply, Function.comp_apply, ih c hc])

theorem jsInsert_perm {α : Type} (le : α → α → Bool) (x : α) (l : List α) :
    (jsInsert le x l).Perm (x :: l) := by
  induction l with
  | nil => exact List.Perm.refl _
  | cons y ys ih =>
    unfold jsInsert
    by_cases hle : le x y
    · rw [if_pos hle]
    · rw [if_neg hle]
      exact (ih.cons y).trans (List.Perm.swap x y ys)

theorem jsSortList_perm {α : Type} (le : α → α → Bool) (l : List α) :
    (jsSortList le l).Perm l := by
  induction l with
  | nil => exact List.Perm.refl _
  | cons x xs ih => exact (jsInsert_perm le x (jsSortList le xs)).trans (ih.cons x)

theorem sortThread_node (cmp rcmp : Ann → Ann → Bool) (d : ThreadData) (cs : List Thread) :
    sortThread cmp rcmp (.node d cs) =
      .node d (jsSortList (threadLE cmp) (cs.map (sortThread rcmp rcmp))) := by
  rw [sortThread, sortThreadList_eq]

theorem mem_treeDatas_sortThread (cmp rcmp : Ann → Ann → Bool) (t : Thread) :
    ∀ d ∈ treeDatas (sortThread cmp rcmp t), d ∈ treeDatas t := by
  induction t using threadInd generalizing cmp rcmp with
  | h dd cs ih =>
    intro d hd
    rw [sortThread_node, treeDatas_node] at hd
    rw [treeDatas_node]
    rcases List.mem_cons.mp hd with h1 | h2
    · exact h1 ▸ List.mem_cons_self _ _
    · refine List.mem_cons_of_mem _ ?_
      rw [mem_treeDatasList_iff] at h2 ⊢
      obtain ⟨c', hc', hd'⟩ := h2
      have hc2 := (jsSortList_perm (threadLE cmp) (cs.map (sortThread rcmp rcmp))).mem_iff.mp hc'
      obtain ⟨c, hc, rfl⟩ := List.mem_map.mp hc2
      exact ⟨c, hc, ih c hc rcmp rcmp d hd'⟩

/-- Through the count pass, every node state has an original whose untouched
fields agree. -/
theorem mem_treeDatas_count (t : Thread) :
    ∀ (dep : Int), ∀ d ∈ treeDatas (countRepliesAndDepth t dep),
      ∃ d0 ∈ treeDatas t, d.id = d0.id ∧ d.ann = d0.ann ∧ d.visible = d0.visible ∧
        d.totalChildren = d0.totalChildren ∧ d.highlightState = d0.highlightState := by
  induction t using threadInd with
  | h dd cs ih =>
    intro dep d hd
    rw [countRepliesAndDepth_data, treeDatas_node] at hd
    rcases List.mem_cons.mp hd with h1 | h2
    · exact ⟨dd, List.mem_cons_self _ _, by subst h1; exact ⟨rfl, rfl, rfl, rfl, rfl⟩⟩
    · rw [countRepliesAndDepthList_eq, mem_treeDatasList_iff] at h2
      obtain ⟨c', hc', hd'⟩ := h2
      obtain ⟨c, hc, rfl⟩ := List.mem_map.mp hc'
      obtain ⟨d0, hd0, he⟩ := ih c hc (dep + 1) d hd'
      refine ⟨d0, ?_, he⟩
      rw [treeDatas_node]
      exact List.mem_cons_of_mem _ ((mem_treeDatasList_iff cs d0).mpr ⟨c, hc, hd0⟩)

theorem mem_treeDatas_filter_root (dd : ThreadData) (cs : List Thread) (g : Thread → Bool)
    (d : ThreadData) (hd : d ∈ treeDatas (.node dd (cs.filter g))) :
    d ∈ treeDatas (.node dd cs) := by
  rw [treeDatas_node] at hd ⊢
  rcases List.mem_cons.mp hd with h1 | h2
  · exact h1 ▸ List.mem_cons_self _ _
  · refine List.mem_cons_of_mem _ ?_
    rw [mem_treeDatasList_iff] at h2 ⊢
    obtain ⟨c, hc, hd'⟩ := h2
    exact ⟨c, List.mem_of_mem_filter hc, hd'⟩

theorem mem_treeDatas_passSelection (opts : Options) (t : Thread) (d : ThreadData)
    (hd : d ∈ treeDatas (passSelection opts t)) : d ∈ treeDatas t := by
  unfold passSelection at hd
  by_cases hs : opts.selected.length > 0
  · rw [if_pos hs] at hd
    cases t with
    | node dd cs => exact mem_treeDatas_filter_root dd cs _ d hd
  · rwa [if_neg hs] at hd

theorem mem_treeDatas_passPrune (t : Thread) (d : ThreadData)
    (hd : d ∈ treeDatas (passPrune t)) : d ∈ treeDatas t := by
  cases t with
  | node dd cs => exact mem_treeDatas_filter_root dd cs _ d hd

theorem mem_treeDatas_passThreadFilter (opts : Options) (t : Thread) (d : ThreadData)
    (hd : d ∈ treeDatas (passThreadFilter opts t)) : d ∈ treeDatas t := by
  unfold passThreadFilter at hd
  cases hf : opts.threadFilterFn with
  | none => rwa [hf] at hd
  | some f =>
    rw [hf] at hd
    cases t with
    | node dd cs => exact mem_treeDatas_filter_root dd cs _ d hd

theorem expTransform_fields (opts : Options) (s : Thread) :
    (expTransform opts s).data.id = s.data.id ∧
      (expTransform opts s).data.ann = s.data.ann ∧
      (expTransform opts s).data.visible = s.data.visible ∧
      (expTransform opts s).data.totalChildren = s.data.totalChildren ∧
      (expTransform opts s).data.highlightState = s.data.highlightState := by
  unfold expTransform
  cases hfind :
      (opts.expanded.find? (fun p => p.1 = jsKey s.data.id)).map (fun p => p.2) with
  | none => exact ⟨rfl, rfl, rfl, rfl, rfl⟩
  | some b => exact ⟨rfl, rfl, rfl, rfl, rfl⟩

theorem visTransform_id (opts : Options) (s : Thread) :
    (visTransform opts s).data.id = s.data.id := rfl

theorem visTransform_ann (opts : Options) (s : Thread) :
    (visTransform opts s).data.ann = s.data.ann := rfl

theorem visTransform_totalChildren (opts : Options) (s : Thread) :
    (visTransform opts s).data.totalChildren = s.data.totalChildren := rfl

theorem visTransform_highlightState (opts : Options) (s : Thread) :
    (visTransform opts s).data.highlightState =
      (if opts.highlighted.length > 0 then
        if s.data.ann.isSome && (match s.data.id with
            | some i => opts.highlighted.contains i
            | none => false)
        then some "highlight" else some "dim"
       else none) := rfl

/-- Every node state of a `buildThread` result agrees, on the fields the later
passes do not touch, with the output of the visibility transform on some node. -/
theorem buildThread_data_origin (anns : List Ann) (opts : Options) (t : Thread)
    (h : buildThread anns opts = some t) :
    ∀ d ∈ treeDatas t, ∃ s : Thread,
      d.id = (visTransform opts s).data.id ∧
      d.ann = (visTransform opts s).data.ann ∧
      d.visible = (visTransform opts s).data.visible ∧
      d.totalChildren = (visTransform opts s).data.totalChildren ∧
      d.highlightState = (visTransform opts s).data.highlightState := by
  obtain ⟨t0, ht0, rfl⟩ := buildThread_eq_pipeline anns opts t h
  intro d hd
  obtain ⟨d5, hd5, he1, he2, he3, he4, he5⟩ := mem_treeDatas_count _ _ d hd
  have hd4 := mem_treeDatas_sortThread _ _ _ _ hd5
  have hd3 := mem_treeDatas_passThreadFilter _ _ _ hd4
  have hd2 := mem_treeDatas_passPrune _ _ hd3
  rw [treeDatas_mapThread] at hd2
  obtain ⟨s2, hs2, rfl⟩ := List.mem_map.mp hd2
  obtain ⟨hf1, hf2, hf3, hf4, hf5⟩ := expTransform_fields opts s2
  have hs2' : s2.data ∈ treeDatas (mapThread (visTransform opts) (passSelection opts t0)) := by
    rw [treeDatas_eq_subtrees_map]
    exact List.mem_map_of_mem Thread.data hs2
  rw [treeDatas_mapThread] at hs2'
  obtain ⟨s1, hs1, hds⟩ := List.mem_map.mp hs2'
  refine ⟨s1, ?_, ?_, ?_, ?_, ?_⟩
  · rw [he1, hf1, hds]
  · rw [he2, hf2, hds]
  · rw [he3, hf3, hds]
  · rw [he4, hf4, hds]
  · rw [he5, hf5, hds]

/-! ### Claim C10: nodes without an annotation are never visible -/

/-- **C10** (`invariants`, confirmed): whenever `buildThread` returns a tree,
every node whose annotation is absent — including the synthetic root and all
placeholder nodes — has a `visible` value that is not true (the visibility
pass computes a falsy value for it, modelled as `false`). -/
theorem C10_no_ann_not_visible (anns : List Ann) (opts : Options) (t : Thread)
    (h : buildThread anns opts = some t) :
    ∀ d ∈ treeDatas t, d.ann = none → d.visible = false := by
  intro d hd hann
  obtain ⟨s, h1, h2, h3, h4, h5⟩ := buildThread_data_origin anns opts t h d hd
  rw [h2, visTransform_ann] at hann
  rw [h3, visTransform_visible, hann]
  simp

/-- Witness for C10: the synthetic root of a concrete `buildThread` run. -/
theorem C10_no_ann_not_visible_witness : treeP.data.visible = false :=
  C10_no_ann_not_visible [annP] {} treeP rfl treeP.data (List.mem_cons_self _ _) rfl

/-! ### Claim C7: highlight states -/

def annCR : Ann := { id := some "c", references := some ["m"] }

/-- Counterexample to C7 as stated: with `highlighted` non-empty, nodes
without an annotation do not keep their default highlight state — the pass
sets them to "dim".  Here both the synthetic root and the placeholder node
"m" (annotation absent, default state `none`) end with `highlightState =
some "dim"`. -/
theorem C7_counterexample :
    (buildThread [annCR] { highlighted := ["c"] }).map
      (fun t =>
        (t.data.ann.isNone, t.data.highlightState,
         (subtreeAt t [0]).map (fun s => (s.data.ann.isNone, s.data.highlightState)))) =
      some (true, some "dim", some (true, some "dim")) := by decide

/-- **C7 amended** (`functional_correctness`): when `highlighted` is
non-empty, every node of the returned tree — annotation-bearing or not —
gets `highlightState` "highlight" if it has an annotation and its id is in
the list, and "dim" otherwise; in particular placeholder nodes and the
synthetic root are set to "dim" rather than keeping their default state. -/
theorem C7_highlight (anns : List Ann) (opts : Options) (t : Thread)
    (h : buildThread anns opts = some t) (hne : opts.highlighted.length > 0) :
    ∀ d ∈ treeDatas t,
      d.highlightState =
        some (if d.ann.isSome && (match d.id with
                | some i => opts.highlighted.contains i
                | none => false)
              then "highlight" else "dim") := by
  intro d hd
  obtain ⟨s, h1, h2, h3, h4, h5⟩ := buildThread_data_origin anns opts t h d hd
  rw [h5, visTransform_highlightState, if_pos hne, h2, visTransform_ann, h1, visTransform_id,
    apply_ite some]

def treeCR : Thread :=
  .node { id := none, ann := none, parent := none, collapsed := false, visible := false,
          totalChildren := 1, highlightState := some "dim", depth := -1, replyCount := 2 }
    [.node { id := some "m", ann := none, parent := none, collapsed := true, visible := false,
             totalChildren := 0, highlightState := some "dim", depth := 0, replyCount := 1 }
      [.node { id := some "c", ann := some annCR, parent := some "m", collapsed := false,
               visible := true, totalChildren := 0, highlightState := some "highlight",
               depth := 1, replyCount := 0 } []]]

/-- Witness for the amended C7 at a concrete input (the root of a concrete
run gets "dim"). -/
theorem C7_highlight_witness :
    treeCR.data.highlightState =
      some (if treeCR.data.ann.isSome && (match treeCR.data.id with
              | some i => (["c"] : List String).contains i
              | none => false)
            then "highlight" else "dim") :=
  C7_highlight [annCR] { highlighted := ["c"] } treeCR rfl (by decide) treeCR.data
    (List.mem_cons_self _ _)

/-! ### Generic reasoning about the linking phase -/

/-- The successful tail of `setParentID`: record the parent and push the
child. -/
def linkStep (m : ThreadMap) (i parentID : String) : ThreadMap :=
  tmUpdate (tmUpdate m i (fun n => { n with parent := some parentID })) parentID
    (fun n => { n with children := n.children ++ [i] })

theorem setParentIDRev_linkStep (m : ThreadMap) (i : String) (parentID : String)
    (rest : List String) :
    setParentIDRev m i (parentID :: rest) =
      match tmLookup m i with
      | none => some m
      | some node =>
        if jsTruthy node.parent then some m
        else
          match
            (match tmLookup m parentID with
             | some _ => some m
             | none =>
               setParentIDRev (tmSet m parentID (placeholderNode parentID)) parentID rest) with
          | none => none
          | some m2 =>
            match chase m2 i (rawP m2 parentID) (m2.length + 1) with
            | none => none
            | some true => some m2
            | some false => some (linkStep m2 i parentID) := rfl

theorem linkStep_lookup (m : ThreadMap) (i parentID k : String) :
    tmLookup (linkStep m i parentID) k =
      ((if i = k then (tmLookup m k).map (fun n => { n with parent := some parentID })
        else tmLookup m k).map
        (fun n => if parentID = k then { n with children := n.children ++ [i] } else n)) := by
  unfold linkStep
  rw [tmLookup_tmUpdate, tmLookup_tmUpdate]
  by_cases hpk : parentID = k <;> by_cases hik : i = k <;>
    simp [hpk, hik, tmLookup_tmUpdate, Option.map_map, Function.comp] <;> try rfl

/-- A link step changes only `parent` (of the child) and `children` (of the
parent); every other field of every container is untouched. -/
theorem linkStep_lookup_fields (m : ThreadMap) (i pid k : String) (n : TNode)
    (h : tmLookup (linkStep m i pid) k = some n) :
    ∃ n0, tmLookup m k = some n0 ∧ n.id = n0.id ∧ n.ann = n0.ann ∧
      n.collapsed = n0.collapsed ∧ n.visible = n0.visible ∧
      n.totalChildren = n0.totalChildren := by
  rw [linkStep_lookup] at h
  cases hl : tmLookup m k with
  | none =>
    rw [hl] at h
    by_cases hik : i = k <;> simp [hik] at h
  | some n0 =>
    rw [hl] at h
    by_cases hik : i = k <;> by_cases hpk : pid = k <;>
        simp only [hik, hpk, if_true, if_false, if_pos, if_neg, Option.map_some',
          Option.some.injEq, reduceIte] at h <;>
      exact ⟨n0, rfl, by rw [← h]; exact ⟨rfl, rfl, rfl, rfl, rfl⟩⟩

/-- Every container present before a linking call is present afterwards, and
containers other than the one being linked keep their parent field. -/
theorem setParentIDRev_mono :
    ∀ (rp : List String) (j : String) (m m' : ThreadMap),
      setParentIDRev m j rp = some m' →
      ∀ k n, tmLookup m k = some n →
        ∃ n', tmLookup m' k = some n' ∧ (k ≠ j → n'.parent = n.parent) := by
  intro rp
  induction rp with
  | nil =>
    intro j m m' h k n hk
    rw [setParentIDRev] at h
    cases h
    exact ⟨n, hk, fun _ => rfl⟩
  | cons parentID rest ih =>
    intro j m m' h k n hk
    rw [setParentIDRev_linkStep] at h
    cases hlj : tmLookup m j with
    | none => simp only [hlj] at h; cases h; exact ⟨n, hk, fun _ => rfl⟩
    | some node =>
      simp only [hlj] at h
      cases htr : jsTruthy node.parent with
      | true =>
        rw [if_pos htr] at h
        cases h
        exact ⟨n, hk, fun _ => rfl⟩
      | false =>
        rw [if_neg (by simp [htr])] at h
        -- analyze the placeholder step
        have hstep : ∀ m2, (match tmLookup m parentID with
            | some _ => some m
            | none =>
              setParentIDRev (tmSet m parentID (placeholderNode parentID)) parentID rest) =
              some m2 →
            ∃ n2, tmLookup m2 k = some n2 ∧ (k ≠ j → n2.parent = n.parent) := by
          intro m2 hm2
          cases hlp : tmLookup m parentID with
          | some np =>
            simp only [hlp] at hm2
            cases hm2
            exact ⟨n, hk, fun _ => rfl⟩
          | none =>
            simp only [hlp] at hm2
            have hkp : ¬ (parentID = k) := fun he => by rw [he, hk] at hlp; cases hlp
            have hk1 : tmLookup (tmSet m parentID (placeholderNode parentID)) k = some n := by
              rw [tmLookup_tmSet, if_neg hkp]
              exact hk
            obtain ⟨n2, hn2, hp2⟩ := ih parentID _ m2 hm2 k n hk1
            exact ⟨n2, hn2, fun _ => hp2 (fun he => hkp he.symm)⟩
        cases hm2eq : (match tmLookup m parentID with
            | some _ => some m
            | none =>
              setParentIDRev (tmSet m parentID (placeholderNode parentID)) parentID rest) with
        | none => simp only [hm2eq] at h; cases h
        | some m2 =>
          simp only [hm2eq] at h
          obtain ⟨n2, hn2, hp2⟩ := hstep m2 hm2eq
          cases hch : chase m2 j (rawP m2 parentID) (m2.length + 1) with
          | none => simp only [hch] at h; cases h
          | some b =>
            simp only [hch] at h
            cases b with
            | true => simp at h; subst h; exact ⟨n2, hn2, hp2⟩
            | false =>
              simp at h
              subst h
              rw [linkStep_lookup]
              by_cases hjk : j = k
              · refine ⟨_, by rw [if_pos hjk, hn2, Option.map_some', Option.map_some'], ?_⟩
                intro hne
                exact absurd hjk.symm hne
              · refine ⟨_, by rw [if_neg hjk, hn2, Option.map_some'], ?_⟩
                intro _
                by_cases hpk : parentID = k <;> simp [hpk, hp2 (fun he => hjk he.symm)]

/-- Induction principle for the linking phase: any map property preserved by
placeholder insertion and by a guarded link step is preserved by
`setParentIDRev`. -/
theorem setParentIDRev_ind (P : ThreadMap → Prop)
    (hset : ∀ m pid, tmLookup m pid = none → P m → P (tmSet m pid (placeholderNode pid)))
    (hlink : ∀ m i pid node np, tmLookup m i = some node → jsTruthy node.parent = false →
      tmLookup m pid = some np →
      chase m i (rawP m pid) (m.length + 1) = some false →
      P m → P (linkStep m i pid)) :
    ∀ (rp : List String) (i : String) (m m' : ThreadMap), P m →
      setParentIDRev m i rp = some m' → P m' := by
  intro rp
  induction rp with
  | nil =>
    intro i m m' hP h
    rw [setParentIDRev] at h
    cases h
    exact hP
  | cons parentID rest ih =>
    intro i m m' hP h
    rw [setParentIDRev_linkStep] at h
    cases hli : tmLookup m i with
    | none => simp only [hli] at h; cases h; exact hP
    | some node =>
      simp only [hli] at h
      cases htr : jsTruthy node.parent with
      | true =>
        rw [if_pos htr] at h
        cases h
        exact hP
      | false =>
        rw [if_neg (by simp [htr])] at h
        have hstep : ∀ m2, (match tmLookup m parentID with
            | some _ => some m
            | none =>
              setParentIDRev (tmSet m parentID (placeholderNode parentID)) parentID rest) =
              some m2 →
            P m2 ∧ (∃ np, tmLookup m2 parentID = some np) ∧
              ∃ node2, tmLookup m2 i = some node2 ∧ jsTruthy node2.parent = false := by
          intro m2 hm2
          cases hlp : tmLookup m parentID with
          | some np =>
            simp only [hlp] at hm2
            cases hm2
            exact ⟨hP, ⟨np, hlp⟩, node, hli, htr⟩
          | none =>
            simp only [hlp] at hm2
            have hip : ¬ (parentID = i) := fun he => by rw [he, hli] at hlp; cases hlp
            refine ⟨ih parentID _ m2 (hset m parentID hlp hP) hm2, ?_, ?_⟩
            · have hk1 : tmLookup (tmSet m parentID (placeholderNode parentID)) parentID =
                  some (placeholderNode parentID) := by
                rw [tmLookup_tmSet, if_pos rfl]
              obtain ⟨np, hnp, -⟩ := setParentIDRev_mono rest parentID _ m2 hm2 parentID _ hk1
              exact ⟨np, hnp⟩
            · have hi1 : tmLookup (tmSet m parentID (placeholderNode parentID)) i =
                  some node := by
                rw [tmLookup_tmSet, if_neg hip]
                exact hli
              obtain ⟨node2, hnode2, hp2⟩ := setParentIDRev_mono rest parentID _ m2 hm2 i _ hi1
              exact ⟨node2, hnode2, by rw [hp2 (fun he => hip he.symm)]; exact htr⟩
        cases hm2eq : (match tmLookup m parentID with
            | some _ => some m
            | none =>
              setParentIDRev (tmSet m parentID (placeholderNode parentID)) parentID rest) with
        | none => simp only [hm2eq] at h; cases h
        | some m2 =>
          simp only [hm2eq] at h
          obtain ⟨hPm2, ⟨np, hnp⟩, node2, hnode2, hfal⟩ := hstep m2 hm2eq
          cases hch : chase m2 i (rawP m2 parentID) (m2.length + 1) with
          | none => simp only [hch] at h; cases h
          | some b =>
            simp only [hch] at h
            cases b with
            | true => simp at h; subst h; exact hPm2
            | false =>
              simp at h
              subst h
              exact hlink m2 i parentID node2 np hnode2 hfal hnp hch hPm2

/-! ### Claim C8: the `totalChildren` field -/

theorem optList_mem {α : Type} :
    ∀ (l : List (Option α)) (xs : List α), optList l = some xs →
      ∀ x ∈ xs, some x ∈ l := by
  intro l
  induction l with
  | nil =>
    intro xs h x hx
    cases h
    simp at hx
  | cons o rest ih =>
    intro xs h x hx
    cases o with
    | none => cases h
    | some a =>
      rw [optList] at h
      cases hrest : optList rest with
      | none => rw [hrest] at h; cases h
      | some l' =>
        rw [hrest] at h
        simp only [Option.map_some', Option.some.injEq] at h
        subst h
        rcases List.mem_cons.mp hx with h1 | h2
        · exact h1 ▸ List.mem_cons_self _ _
        · exact List.mem_cons_of_mem _ (ih l' hrest x h2)

theorem toTree_zero_eq (m : ThreadMap) (k : String) : toTree m 0 k = none := rfl

theorem toTree_succ (m : ThreadMap) (fuel : Nat) (k : String) :
    toTree m (fuel + 1) k =
      match tmLookup m k with
      | none => none
      | some n =>
        (optList (n.children.map (toTree m fuel))).map (fun cs => .node (tnodeData n) cs) :=
  rfl

theorem tmLookup_markCollapsed (m : ThreadMap) (k : String) :
    tmLookup (markCollapsed m) k =
      (tmLookup m k).map
        (fun n => if jsTruthy n.parent then n else { n with collapsed := true }) := by
  induction m with
  | nil => rfl
  | cons p m ih =>
    unfold markCollapsed at ih ⊢
    simp only [List.map_cons]
    cases htr : jsTruthy p.2.parent with
    | true =>
      rw [if_pos rfl, tmLookup_cons, tmLookup_cons]
      by_cases hp : p.1 = k
      · rw [if_pos hp, if_pos hp, Option.map_some', if_pos htr]
      · rw [if_neg hp, if_neg hp]
        exact ih
    | false =>
      rw [if_neg (by simp), tmLookup_cons, tmLookup_cons]
      by_cases hp : p.1 = k
      · rw [if_pos hp, if_pos hp, Option.map_some', if_neg (by simp [htr])]
      · rw [if_neg hp, if_neg hp]
        exact ih

/-- All containers carry `totalChildren = 0`: the construction never updates
that field (only the synthetic root is given a real count). -/
theorem buildThreadMap_totalChildren (anns : List Ann) (m : ThreadMap)
    (h : buildThreadMap anns = some m) :
    ∀ k n, tmLookup m k = some n → n.totalChildren = 0 := by
  unfold buildThreadMap at h
  have hm0 : ∀ (l : List Ann) (start : ThreadMap),
      (∀ k n, tmLookup start k = some n → n.totalChildren = 0) →
      ∀ k n, tmLookup (l.foldl
          (fun m a => tmSet m (annId a) { id := annId a, ann := some a }) start) k = some n →
        n.totalChildren = 0 := by
    intro l
    induction l with
    | nil => intro start hs; exact hs
    | cons a l ih =>
      intro start hs
      rw [List.foldl_cons]
      refine ih _ ?_
      intro k n hk
      rw [tmLookup_tmSet] at hk
      by_cases he : annId a = k
      · rw [if_pos he] at hk
        cases hk
        rfl
      · rw [if_neg he] at hk
        exact hs k n hk
  have hlink : ∀ (l : List Ann) (m0 mf : ThreadMap),
      (∀ k n, tmLookup m0 k = some n → n.totalChildren = 0) →
      l.foldl (fun acc a => acc.bind (fun m => match a.references with
        | none => some m
        | some refs => setParentID m (annId a) refs)) (some m0) = some mf →
      ∀ k n, tmLookup mf k = some n → n.totalChildren = 0 := by
    intro l
    induction l with
    | nil =>
      intro m0 mf h0 hf
      rw [List.foldl_nil] at hf
      cases hf
      exact h0
    | cons a l ih =>
      intro m0 mf h0 hf
      rw [List.foldl_cons] at hf
      cases ha : a.references with
      | none =>
        simp only [ha, Option.some_bind] at hf
        exact ih m0 mf h0 hf
      | some refs =>
        simp only [ha, Option.some_bind] at hf
        cases hs : setParentID m0 (annId a) refs with
        | none =>
          rw [hs] at hf
          rw [show ∀ l2 : List Ann, l2.foldl (fun acc a => acc.bind (fun m =>
            match a.references with
            | none => some m
            | some refs => setParentID m (annId a) refs)) none = none from ?_] at hf
          · cases hf
          · intro l2
            induction l2 with
            | nil => rfl
            | cons b l2 ih2 => rw [List.foldl_cons, Option.none_bind]; exact ih2
        | some m1 =>
          rw [hs] at hf
          refine ih m1 mf ?_ hf
          refine setParentIDRev_ind
            (fun mm => ∀ k n, tmLookup mm k = some n → n.totalChildren = 0) ?_ ?_
            refs.reverse (annId a) m0 m1 h0 hs
          · intro mm pid hnone hP k n hk
            rw [tmLookup_tmSet] at hk
            by_cases he : pid = k
            · rw [if_pos he] at hk
              cases hk
              rfl
            · rw [if_neg he] at hk
              exact hP k n hk
          · intro mm i pid node np hnode hfal hnp hch hP k n hk
            obtain ⟨n0, hl, -, -, -, -, htc⟩ := linkStep_lookup_fields mm i pid k n hk
            rw [htc]
            exact hP k n0 hl
  exact hlink anns _ m (hm0 anns [] (by intro k n hk; cases hk) ) h

/-- Expanded trees inherit `totalChildren = 0` from the containers. -/
theorem toTree_totalChildren (m : ThreadMap)
    (hq : ∀ k n, tmLookup m k = some n → n.totalChildren = 0) :
    ∀ (fuel : Nat) (k : String) (tr : Thread), toTree m fuel k = some tr →
      ∀ d ∈ treeDatas tr, d.totalChildren = 0 := by
  intro fuel
  induction fuel with
  | zero => intro k tr h; cases h
  | succ fuel ih =>
    intro k tr h
    rw [toTree_succ] at h
    cases hlk : tmLookup m k with
    | none => simp [hlk] at h
    | some n =>
      simp only [hlk] at h
      cases hol : optList (n.children.map (toTree m fuel)) with
      | none => simp [hol] at h
      | some cs =>
        simp only [hol] at h
        simp only [Option.map_some', Option.some.injEq] at h
        subst h
        intro d hd
        rw [treeDatas_node] at hd
        rcases List.mem_cons.mp hd with h1 | h2
        · rw [h1]
          exact hq k n hlk
        · rw [mem_treeDatasList_iff] at h2
          obtain ⟨c, hc, hd'⟩ := h2
          have := optList_mem _ cs hol c hc
          obtain ⟨k', hk', he⟩ := List.mem_map.mp this
          exact ih k' c he d hd'

/-- Shape of a successful `threadAnns` result: the root carries the number of
its children as `totalChildren`, and every child subtree comes from
`toTree`. -/
theorem threadAnns_shape (anns : List Ann) (t0 : Thread) (h : threadAnns anns = some t0) :
    ∃ m1, buildThreadMap anns = some m1 ∧
      ∃ roots, optList ((rootIds (markCollapsed m1)).map
          (toTree (markCollapsed m1) ((markCollapsed m1).length + 1))) = some roots ∧
        t0 = .node { id := none, ann := none, parent := none, collapsed := false,
                     visible := true, totalChildren := roots.length } roots := by
  unfold threadAnns at h
  cases hb : buildThreadMap anns with
  | none => rw [hb] at h; cases h
  | some m1 =>
    rw [hb] at h
    simp only [Option.some_bind] at h
    cases hol : optList ((rootIds (markCollapsed m1)).map
        (toTree (markCollapsed m1) ((markCollapsed m1).length + 1))) with
    | none => rw [hol] at h; cases h
    | some roots =>
      rw [hol] at h
      simp only [Option.map_some', Option.some.injEq] at h
      exact ⟨m1, rfl, roots, hol, h.symm⟩

theorem threadAnns_root_totalChildren (anns : List Ann) (t0 : Thread)
    (h : threadAnns anns = some t0) :
    t0.data.totalChildren = t0.children.length := by
  obtain ⟨m1, -, roots, -, rfl⟩ := threadAnns_shape anns t0 h
  rfl

theorem threadAnns_children_totalChildren (anns : List Ann) (t0 : Thread)
    (h : threadAnns anns = some t0) :
    ∀ d ∈ treeDatasList t0.children, d.totalChildren = 0 := by
  obtain ⟨m1, hb, roots, hol, rfl⟩ := threadAnns_shape anns t0 h
  intro d hd
  rw [Thread.children_node, mem_treeDatasList_iff] at hd
  obtain ⟨c, hc, hd'⟩ := hd
  have := optList_mem _ roots hol c hc
  obtain ⟨k', hk', he⟩ := List.mem_map.mp this
  have hq1 := buildThreadMap_totalChildren anns m1 hb
  have hq2 : ∀ k n, tmLookup (markCollapsed m1) k = some n → n.totalChildren = 0 := by
    intro k n hk
    rw [tmLookup_markCollapsed] at hk
    cases hl : tmLookup m1 k with
    | none => rw [hl] at hk; cases hk
    | some n0 =>
      rw [hl] at hk
      simp only [Option.map_some', Option.some.injEq] at hk
      subst hk
      have := hq1 k n0 hl
      by_cases htr : jsTruthy n0.parent <;> simp [htr, this]
  exact toTree_totalChildren (markCollapsed m1) hq2 _ k' c he d hd'

/-! Children-level membership tracking: nodes strictly below the root of the
final tree originate strictly below the root of the construction tree. -/

theorem mem_childDatas_count (t : Thread) (dep : Int) (d : ThreadData)
    (hd : d ∈ treeDatasList (countRepliesAndDepth t dep).children) :
    ∃ d0 ∈ treeDatasList t.children, d.totalChildren = d0.totalChildren := by
  cases t with
  | node dd cs =>
    rw [countRepliesAndDepth_data, Thread.children_node, countRepliesAndDepthList_eq,
      mem_treeDatasList_iff] at hd
    obtain ⟨c', hc', hd'⟩ := hd
    obtain ⟨c, hc, rfl⟩ := List.mem_map.mp hc'
    obtain ⟨d0, hd0, -, -, -, htc, -⟩ := mem_treeDatas_count c (dep + 1) d hd'
    exact ⟨d0, (mem_treeDatasList_iff cs d0).mpr ⟨c, hc, hd0⟩, htc⟩

theorem mem_childDatas_sort (cmp rcmp : Ann → Ann → Bool) (t : Thread) (d : ThreadData)
    (hd : d ∈ treeDatasList (sortThread cmp rcmp t).children) :
    d ∈ treeDatasList t.children := by
  cases t with
  | node dd cs =>
    rw [sortThread_node, Thread.children_node, mem_treeDatasList_iff] at hd
    obtain ⟨c', hc', hd'⟩ := hd
    have hc2 := (jsSortList_perm (threadLE cmp) (cs.map (sortThread rcmp rcmp))).mem_iff.mp hc'
    obtain ⟨c, hc, rfl⟩ := List.mem_map.mp hc2
    exact (mem_treeDatasList_iff cs d).mpr ⟨c, hc, mem_treeDatas_sortThread rcmp rcmp c d hd'⟩

theorem mem_childDatas_filter (cs : List Thread) (g : Thread → Bool) (d : ThreadData)
    (hd : d ∈ treeDatasList (cs.filter g)) : d ∈ treeDatasList cs := by
  rw [mem_treeDatasList_iff] at hd ⊢
  obtain ⟨c, hc, hd'⟩ := hd
  exact ⟨c, List.mem_of_mem_filter hc, hd'⟩

theorem mem_childDatas_mapThread (f : Thread → Thread) (t : Thread) (d : ThreadData)
    (hd : d ∈ treeDatasList (mapThread f t).children) :
    ∃ s ∈ subtreesList t.children, d = (f s).data := by
  cases t with
  | node dd cs =>
    rw [mapThread_node, Thread.children_node, mem_treeDatasList_iff] at hd
    obtain ⟨c', hc', hd'⟩ := hd
    obtain ⟨c, hc, rfl⟩ := List.mem_map.mp hc'
    rw [treeDatas_mapThread] at hd'
    obtain ⟨s, hs, rfl⟩ := List.mem_map.mp hd'
    exact ⟨s, (mem_subtreesList_iff cs s).mpr ⟨c, hc, hs⟩, rfl⟩

theorem mem_subtreesList_mapThread (f : Thread → Thread) (cs : List Thread) (s : Thread)
    (hs : s ∈ subtreesList (cs.map (mapThread f))) :
    ∃ s0 ∈ subtreesList cs, s = mapThread f s0 := by
  rw [mem_subtreesList_iff] at hs
  obtain ⟨c', hc', hs'⟩ := hs
  obtain ⟨c, hc, rfl⟩ := List.mem_map.mp hc'
  rw [subtrees_mapThread] at hs'
  obtain ⟨s0, hs0, rfl⟩ := List.mem_map.mp hs'
  exact ⟨s0, (mem_subtreesList_iff cs s0).mpr ⟨c, hc, hs0⟩, rfl⟩

theorem passThreadFilter_children (opts : Options) (t : Thread) (d : ThreadData)
    (hd : d ∈ treeDatasList (passThreadFilter opts t).children) :
    d ∈ treeDatasList t.children := by
  unfold passThreadFilter at hd
  cases hf : opts.threadFilterFn with
  | none => rw [hf] at hd; exact hd
  | some f =>
    rw [hf] at hd
    rw [Thread.children_node] at hd
    exact mem_childDatas_filter _ _ d hd

theorem passPrune_children (t : Thread) (d : ThreadData)
    (hd : d ∈ treeDatasList (passPrune t).children) : d ∈ treeDatasList t.children := by
  unfold passPrune at hd
  rw [Thread.children_node] at hd
  exact mem_childDatas_filter _ _ d hd

theorem passSelection_subtrees (opts : Options) (t : Thread) (s : Thread)
    (hs : s ∈ subtreesList (passSelection opts t).children) :
    s ∈ subtreesList t.children := by
  unfold passSelection at hs
  by_cases hsel : opts.selected.length > 0
  · rw [if_pos hsel, Thread.children_node] at hs
    rw [mem_subtreesList_iff] at hs ⊢
    obtain ⟨c, hc, hs'⟩ := hs
    exact ⟨c, List.mem_of_mem_filter hc, hs'⟩
  · rwa [if_neg hsel] at hs

/-- Non-root node states of a `buildThread` result take their `totalChildren`
from a non-root node of the construction tree. -/
theorem buildThread_childData_origin (anns : List Ann) (opts : Options) (t : Thread)
    (h : buildThread anns opts = some t) :
    ∀ d ∈ treeDatasList t.children, ∃ t0 s, threadAnns anns = some t0 ∧
      s ∈ subtreesList t0.children ∧ d.totalChildren = s.data.totalChildren := by
  obtain ⟨t0, ht0, rfl⟩ := buildThread_eq_pipeline anns opts t h
  intro d hd
  obtain ⟨d5, hd5, htc5⟩ := mem_childDatas_count _ _ d hd
  have hd4 := mem_childDatas_sort _ _ _ _ hd5
  have hd3 := passThreadFilter_children _ _ _ hd4
  have hd2 := passPrune_children _ _ hd3
  obtain ⟨s2, hs2, rfl⟩ := mem_childDatas_mapThread _ _ _ hd2
  rw [show (mapThread (visTransform opts) (passSelection opts t0)).children =
      (passSelection opts t0).children.map (mapThread (visTransform opts)) from ?_] at hs2
  · obtain ⟨s1, hs1, rfl⟩ := mem_subtreesList_mapThread _ _ _ hs2
    refine ⟨t0, s1, ht0, passSelection_subtrees opts t0 s1 hs1, ?_⟩
    obtain ⟨-, -, -, htce, -⟩ := expTransform_fields opts (mapThread (visTransform opts) s1)
    rw [htc5, htce, mapThread_data, visTransform_totalChildren]
  · cases passSelection opts t0 with
    | node dd cs => rw [mapThread_node, Thread.children_node, Thread.children_node]

def annC : Ann := { id := some "c", references := some ["p"] }

/-- Counterexample to C8 as stated: the node for annotation "p" has one direct
child but `totalChildren = 0` (the construction never sets the field for
non-root nodes), so the claimed equation evaluates to false there. -/
theorem C8_counterexample :
    (buildThread [annP, annC] {}).map (fun t =>
      (subtreeAt t [0]).map (fun s =>
        (s.data.totalChildren, s.children.length,
         decide (s.data.totalChildren = s.children.length)))) =
      some (some (0, 1, false)) := by decide

/-- **C8 amended** (`functional_correctness`): in a `buildThread` result the
synthetic root's `totalChildren` equals its pre-filter number of direct
children (the top-level thread count of the construction), but every other
node keeps the default `totalChildren = 0` regardless of how many direct
children it has. -/
theorem C8_totalChildren (anns : List Ann) (opts : Options) (t : Thread)
    (h : buildThread anns opts = some t) :
    (∃ t0, threadAnns anns = some t0 ∧
        t.data.totalChildren = t0.data.totalChildren ∧
        t0.data.totalChildren = t0.children.length) ∧
      ∀ d ∈ treeDatasList t.children, d.totalChildren = 0 := by
  constructor
  · obtain ⟨t0, ht0, rfl⟩ := buildThread_eq_pipeline anns opts t h
    refine ⟨t0, ht0, ?_, threadAnns_root_totalChildren anns t0 ht0⟩
    cases hX : sortThread opts.sortCompareFn opts.replySortCompareFn
        (passThreadFilter opts (passPrune (mapThread (expTransform opts)
          (mapThread (visTransform opts) (passSelection opts t0))))) with
    | node dX csX =>
      rw [countRepliesAndDepth_data, Thread.data_node]
      have hdX : dX = (sortThread opts.sortCompareFn opts.replySortCompareFn
          (passThreadFilter opts (passPrune (mapThread (expTransform opts)
            (mapThread (visTransform opts) (passSelection opts t0)))))).data := by
        rw [hX]; rfl
      show dX.totalChildren = t0.data.totalChildren
      rw [hdX]
      cases hY : passThreadFilter opts (passPrune (mapThread (expTransform opts)
          (mapThread (visTransform opts) (passSelection opts t0)))) with
      | node dY csY =>
        rw [sortThread_node, Thread.data_node]
        have hdY : dY = (passThreadFilter opts (passPrune (mapThread (expTransform opts)
            (mapThread (visTransform opts) (passSelection opts t0))))).data := by
          rw [hY]; rfl
        rw [hdY]
        have h1 : (passThreadFilter opts (passPrune (mapThread (expTransform opts)
            (mapThread (visTransform opts) (passSelection opts t0))))).data =
            (passPrune (mapThread (expTransform opts)
              (mapThread (visTransform opts) (passSelection opts t0)))).data := by
          unfold passThreadFilter
          cases opts.threadFilterFn <;> rfl
        have h2 : (passPrune (mapThread (expTransform opts)
            (mapThread (visTransform opts) (passSelection opts t0)))).data =
            (mapThread (expTransform opts)
              (mapThread (visTransform opts) (passSelection opts t0))).data := by
          unfold passPrune
          rfl
        have h3 : (passSelection opts t0).data = t0.data := by
          unfold passSelection
          by_cases hsel : opts.selected.length > 0
          · rw [if_pos hsel]; rfl
          · rw [if_neg hsel]
        rw [h1, h2, mapThread_data]
        obtain ⟨-, -, -, htce, -⟩ := expTransform_fields opts
          (mapThread (visTransform opts) (passSelection opts t0))
        rw [htce, mapThread_data, visTransform_totalChildren, h3]
  · intro d hd
    obtain ⟨t0, s, ht0, hs, htc⟩ := buildThread_childData_origin anns opts t h d hd
    rw [htc]
    have hsd : s.data ∈ treeDatasList t0.children := by
      rw [mem_treeDatasList_iff]
      rw [mem_subtreesList_iff] at hs
      obtain ⟨c, hc, hs'⟩ := hs
      refine ⟨c, hc, ?_⟩
      rw [treeDatas_eq_subtrees_map]
      exact List.mem_map_of_mem Thread.data hs'
    exact threadAnns_children_totalChildren anns t0 ht0 s.data hsd

def treePCc : Thread :=
  .node { id := some "c", ann := some annC, parent := some "p", collapsed := false,
          visible := true, totalChildren := 0, highlightState := none, depth := 1,
          replyCount := 0 } []

def treePCp : Thread :=
  .node { id := some "p", ann := some annP, parent := none, collapsed := true,
          visible := true, totalChildren := 0, highlightState := none, depth := 0,
          replyCount := 1 } [treePCc]

def treePC : Thread :=
  .node { id := none, ann := none, parent := none, collapsed := false, visible := false,
          totalChildren := 1, highlightState := none, depth := -1, replyCount := 2 }
    [treePCp]

/-- Witness for the amended C8 at a concrete input: the "p" node (one child)
keeps `totalChildren = 0`. -/
theorem C8_totalChildren_witness : treePCp.data.totalChildren = 0 :=
  (C8_totalChildren [annP, annC] {} treePC rfl).2 treePCp.data
    (by
      have : treeDatasList treePC.children = [treePCp.data, treePCc.data] := rfl
      rw [this]
      exact List.mem_cons_self _ _)

/-! ### Claim C5: sorting -/

theorem char_eq_of_toNat_eq (a b : Char) (h : a.toNat = b.toNat) : a = b := by
  have h2 : Char.ofNat a.toNat = Char.ofNat b.toNat := by rw [h]
  rwa [Char.ofNat_toNat, Char.ofNat_toNat] at h2

theorem strLtAux_trans :
    ∀ a b c : List Char, strLtAux a b = true → strLtAux b c = true → strLtAux a c = true := by
  intro a
  induction a with
  | nil =>
    intro b c hab hbc
    cases b with
    | nil => cases hab
    | cons y ys =>
      cases c with
      | nil => cases hbc
      | cons z zs => rfl
  | cons x xs ih =>
    intro b c hab hbc
    cases b with
    | nil => cases hab
    | cons y ys =>
      cases c with
      | nil => cases hbc
      | cons z zs =>
        unfold strLtAux at hab hbc ⊢
        by_cases hxy : x.toNat < y.toNat
        · by_cases hyz : y.toNat < z.toNat
          · rw [if_pos (by omega)]
          · rw [if_pos hxy] at hab
            by_cases hzy : z.toNat < y.toNat
            · rw [if_neg hyz, if_pos hzy] at hbc
              cases hbc
            · have : y.toNat = z.toNat := by omega
              rw [if_pos (by omega)]
        · by_cases hyx : y.toNat < x.toNat
          · rw [if_neg hxy, if_pos hyx] at hab
            cases hab
          · have hxy2 : x.toNat = y.toNat := by omega
            rw [if_neg hxy, if_neg hyx] at hab
            by_cases hyz : y.toNat < z.toNat
            · rw [if_pos (by omega)]
            · by_cases hzy : z.toNat < y.toNat
              · rw [if_neg hyz, if_pos hzy] at hbc
                cases hbc
              · have hyz2 : y.toNat = z.toNat := by omega
                rw [if_neg hyz, if_neg hzy] at hbc
                rw [if_neg (by omega), if_neg (by omega)]
                exact ih ys zs hab hbc

theorem strLtAux_eq_of_not :
    ∀ a b : List Char, strLtAux a b = false → strLtAux b a = false → a = b := by
  intro a
  induction a with
  | nil =>
    intro b hab _
    cases b with
    | nil => rfl
    | cons y ys => cases hab
  | cons x xs ih =>
    intro b hab hba
    cases b with
    | nil => cases hba
    | cons y ys =>
      unfold strLtAux at hab hba
      by_cases hxy : x.toNat < y.toNat
      · rw [if_pos hxy] at hab
        cases hab
      · by_cases hyx : y.toNat < x.toNat
        · rw [if_pos hyx] at hba
          cases hba
        · rw [if_neg hxy, if_neg hyx] at hab
          rw [if_neg hyx, if_neg hxy] at hba
          rw [char_eq_of_toNat_eq x y (by omega), ih ys hab hba]

theorem strLt_trans (a b c : String) (h1 : strLt a b = true) (h2 : strLt b c = true) :
    strLt a c = true :=
  strLtAux_trans a.data b.data c.data h1 h2

theorem strLt_eq_of_not (a b : String) (h1 : strLt a b = false) (h2 : strLt b a = false) :
    a = b := by
  have h3 := strLtAux_eq_of_not a.data b.data h1 h2
  cases a
  cases b
  exact congrArg String.mk (by simpa using h3)

/-- The comparator-induced order is always total. -/
theorem threadLE_total (cmp : Ann → Ann → Bool) (a b : Thread) :
    threadLE cmp a b = true ∨ threadLE cmp b a = true := by
  unfold threadLE threadCmp
  cases ha : a.data.ann with
  | none => cases hb : b.data.ann <;> simp
  | some x =>
    cases hb : b.data.ann with
    | none => simp
    | some y =>
      by_cases hxy : cmp x y <;> by_cases hyx : cmp y x <;> simp [hxy, hyx]

theorem pairwise_jsInsert (le : Thread → Thread → Bool)
    (htr : ∀ a b c : Thread, le a b = true → le b c = true → le a c = true)
    (x : Thread) (l : List Thread)
    (htot : ∀ a b : Thread, le a b = true ∨ le b a = true)
    (hl : l.Pairwise (fun a b => le a b = true)) :
    (jsInsert le x l).Pairwise (fun a b => le a b = true) := by
  induction l with
  | nil => simp [jsInsert]
  | cons y ys ih =>
    rw [List.pairwise_cons] at hl
    unfold jsInsert
    by_cases hxy : le x y
    · rw [if_pos hxy]
      refine List.Pairwise.cons ?_ (List.Pairwise.cons hl.1 hl.2)
      intro z hz
      rcases List.mem_cons.mp hz with h1 | h2
      · exact h1 ▸ hxy
      · exact htr x y z hxy (hl.1 z h2)
    · rw [if_neg hxy]
      have hyx : le y x = true := by
        rcases htot x y with h | h
        · exact absurd h hxy
        · exact h
      refine List.Pairwise.cons ?_ (ih hl.2)
      intro z hz
      have := (jsInsert_perm le x ys).mem_iff.mp hz
      rcases List.mem_cons.mp this with h1 | h2
      · exact h1 ▸ hyx
      · exact hl.1 z h2

theorem pairwise_jsSortList (le : Thread → Thread → Bool)
    (htr : ∀ a b c : Thread, le a b = true → le b c = true → le a c = true)
    (htot : ∀ a b : Thread, le a b = true ∨ le b a = true) (l : List Thread) :
    (jsSortList le l).Pairwise (fun a b => le a b = true) := by
  induction l with
  | nil => simp [jsSortList]
  | cons x xs ih => exact pairwise_jsInsert le htr x _ htot ih

/-- The children of a sorted tree are sorted: at the root by the top-level
comparator, at every deeper level by the reply comparator. -/
theorem sortThread_root_sorted (cmp rcmp : Ann → Ann → Bool)
    (htr : ∀ a b c : Thread, threadLE cmp a b = true → threadLE cmp b c = true →
      threadLE cmp a c = true) (t : Thread) :
    (sortThread cmp rcmp t).children.Pairwise (fun a b => threadLE cmp a b = true) := by
  cases t with
  | node d cs =>
    rw [sortThread_node, Thread.children_node]
    exact pairwise_jsSortList _ htr (threadLE_total cmp) _

theorem sortThread_deep_sorted (cmp rcmp : Ann → Ann → Bool)
    (htr : ∀ a b c : Thread, threadLE rcmp a b = true → threadLE rcmp b c = true →
      threadLE rcmp a c = true) :
    ∀ (p : List Nat) (t s : Thread), p ≠ [] →
      subtreeAt (sortThread cmp rcmp t) p = some s →
      s.children.Pairwise (fun a b => threadLE rcmp a b = true) := by
  intro p
  induction p generalizing cmp with
  | nil => intro t s hne; exact absurd rfl hne
  | cons i rest ih =>
    intro t s _ hsub
    cases t with
    | node d cs =>
      rw [sortThread_node] at hsub
      rw [subtreeAt] at hsub
      cases hget : (jsSortList (threadLE cmp) (cs.map (sortThread rcmp rcmp))).get? i with
      | none => rw [hget] at hsub; cases hsub
      | some c' =>
        rw [hget] at hsub
        have hmem : c' ∈ jsSortList (threadLE cmp) (cs.map (sortThread rcmp rcmp)) := by
          rw [List.get?_eq_getElem?] at hget
          exact List.getElem?_mem hget
        have hmem2 := (jsSortList_perm _ _).mem_iff.mp hmem
        obtain ⟨c, hc, rfl⟩ := List.mem_map.mp hmem2
        cases rest with
        | nil =>
          simp only [subtreeAt, Option.some.injEq] at hsub
          subst hsub
          exact sortThread_root_sorted rcmp rcmp htr c
        | cons j rest' =>
          exact ih rcmp c s (by simp) hsub

theorem count_ann (c : Thread) (e : Int) :
    (countRepliesAndDepth c e).data.ann = c.data.ann := by
  cases c with
  | node d cs => rw [countRepliesAndDepth_data]; rfl

theorem threadLE_count (cmp : Ann → Ann → Bool) (a b : Thread) (e : Int) :
    threadLE cmp (countRepliesAndDepth a e) (countRepliesAndDepth b e) = threadLE cmp a b := by
  unfold threadLE threadCmp
  rw [count_ann, count_ann]

theorem count_children (t : Thread) (e : Int) :
    (countRepliesAndDepth t e).children = t.children.map (fun c => countRepliesAndDepth c (e + 1)) := by
  cases t with
  | node d cs =>
    rw [countRepliesAndDepth_data, Thread.children_node, countRepliesAndDepthList_eq,
      Thread.children_node]

def ann1 : Ann := { id := some "1" }
def ann2 : Ann := { id := some "2" }
def ann3 : Ann := { id := some "3" }

/-- **C5** (`functional_correctness`, confirmed): in the returned tree the
root's children are ordered by `sortCompareFn` and the children at every
deeper level are ordered by `replySortCompareFn` uniformly (for comparators
whose induced thread order is transitive); nodes lacking an annotation
precede nodes with one, two annotation-bearing nodes are ordered by the
comparator with ties treated as equal; and with three top-level annotations
"3","1","2" under the default comparator the root's children come out
"1","2","3". -/
theorem C5_sorting (anns : List Ann) (opts : Options) (t : Thread)
    (h : buildThread anns opts = some t)
    (htr1 : ∀ a b c : Thread, threadLE opts.sortCompareFn a b = true →
      threadLE opts.sortCompareFn b c = true → threadLE opts.sortCompareFn a c = true)
    (htr2 : ∀ a b c : Thread, threadLE opts.replySortCompareFn a b = true →
      threadLE opts.replySortCompareFn b c = true →
      threadLE opts.replySortCompareFn a c = true) :
    (t.children.Pairwise (fun a b => threadLE opts.sortCompareFn a b = true)) ∧
      (∀ (p : List Nat) (s : Thread), p ≠ [] → subtreeAt t p = some s →
        s.children.Pairwise (fun a b => threadLE opts.replySortCompareFn a b = true)) ∧
      (∀ (cmp : Ann → Ann → Bool) (a b : Thread),
        (a.data.ann = none → b.data.ann = none → threadCmp cmp a b = 0) ∧
        (a.data.ann = none → b.data.ann.isSome → threadCmp cmp a b = -1) ∧
        (a.data.ann.isSome → b.data.ann = none → threadCmp cmp a b = 1)) ∧
      (∀ (cmp : Ann → Ann → Bool) (a b : Thread) (x y : Ann),
        a.data.ann = some x → b.data.ann = some y →
        threadCmp cmp a b = if cmp x y then -1 else if cmp y x then 1 else 0) ∧
      ((buildThread [ann3, ann1, ann2] {}).map treeIds = some ["1", "2", "3"]) := by
  obtain ⟨t0, -, rfl⟩ := buildThread_eq_pipeline anns opts t h
  refine ⟨?_, ?_, ?_, ?_, by decide⟩
  · rw [count_children]
    rw [List.pairwise_map]
    have hs := sortThread_root_sorted opts.sortCompareFn opts.replySortCompareFn htr1
      (passThreadFilter opts (passPrune (mapThread (expTransform opts)
        (mapThread (visTransform opts) (passSelection opts t0)))))
    refine hs.imp ?_
    intro a b hab
    rw [threadLE_count]
    exact hab
  · intro p s hne hsub
    rw [subtreeAt_count] at hsub
    obtain ⟨s', hs', rfl⟩ := Option.map_eq_some'.mp hsub
    have hd := sortThread_deep_sorted opts.sortCompareFn opts.replySortCompareFn htr2 p
      _ s' hne hs'
    rw [count_children, List.pairwise_map]
    refine hd.imp ?_
    intro a b hab
    rw [threadLE_count]
    exact hab
  · intro cmp a b
    refine ⟨?_, ?_, ?_⟩
    · intro ha hb
      unfold threadCmp
      rw [ha, hb]
    · intro ha hb
      obtain ⟨y, hy⟩ := Option.isSome_iff_exists.mp hb
      unfold threadCmp
      rw [ha, hy]
    · intro ha hb
      obtain ⟨x, hx⟩ := Option.isSome_iff_exists.mp ha
      unfold threadCmp
      rw [hx, hb]
  · intro cmp a b x y hx hy
    unfold threadCmp
    rw [hx, hy]

/-- The comparator used by the C5 witness: compare `created` timestamps. -/
def cmpW (a b : Ann) : Bool := strLt a.created b.created

theorem strLtAux_irrefl : ∀ a : List Char, strLtAux a a = false := by
  intro a
  induction a with
  | nil => rfl
  | cons x xs ih =>
    unfold strLtAux
    rw [if_neg (by omega), if_neg (by omega)]
    exact ih

theorem strLt_irrefl (s : String) : strLt s s = false := strLtAux_irrefl s.data

theorem threadLE_some_some (cmp : Ann → Ann → Bool) (a b : Thread) (x y : Ann)
    (hx : a.data.ann = some x) (hy : b.data.ann = some y) :
    (threadLE cmp a b = true) ↔ (cmp x y = true ∨ cmp y x = false) := by
  unfold threadLE threadCmp
  rw [hx, hy]
  by_cases h1 : cmp x y <;> by_cases h2 : cmp y x <;> simp [h1, h2]

theorem threadLE_some_none (cmp : Ann → Ann → Bool) (a b : Thread) (x : Ann)
    (hx : a.data.ann = some x) (hy : b.data.ann = none) :
    threadLE cmp a b = false := by
  unfold threadLE threadCmp
  rw [hx, hy]
  rfl

theorem threadLE_cmpW_trans (a b c : Thread) (h1 : threadLE cmpW a b = true)
    (h2 : threadLE cmpW b c = true) : threadLE cmpW a c = true := by
  cases ha : a.data.ann with
  | none => cases hc : c.data.ann <;> simp [threadLE, threadCmp, ha, hc]
  | some x =>
    cases hb : b.data.ann with
    | none => rw [threadLE_some_none cmpW a b x ha hb] at h1; cases h1
    | some y =>
      cases hc : c.data.ann with
      | none => rw [threadLE_some_none cmpW b c y hb hc] at h2; cases h2
      | some z =>
        rw [threadLE_some_some cmpW a b x y ha hb] at h1
        rw [threadLE_some_some cmpW b c y z hb hc] at h2
        rw [threadLE_some_some cmpW a c x z ha hc]
        unfold cmpW at h1 h2 ⊢
        by_cases hzx : strLt z.created x.created = true
        · left
          rcases h1 with h1 | h1 <;> rcases h2 with h2 | h2
          · exact strLt_trans _ _ _ h1 h2
          · exact absurd (strLt_trans _ _ _ hzx h1) (Bool.eq_false_iff.mp h2)
          · exact absurd (strLt_trans _ _ _ h2 hzx) (Bool.eq_false_iff.mp h1)
          · by_cases hxy : strLt x.created y.created = true
            · exact absurd (strLt_trans _ _ _ hzx hxy) (Bool.eq_false_iff.mp h2)
            · have heq := strLt_eq_of_not _ _ (Bool.eq_false_iff.mpr hxy) h1
              rw [heq] at hzx
              exact absurd hzx (Bool.eq_false_iff.mp h2)
        · right
          exact Bool.eq_false_iff.mpr hzx

def annWa : Ann := { id := some "a", created := "2" }
def annWb : Ann := { id := some "b", created := "1" }

def treeW : Thread :=
  .node { id := none, ann := none, parent := none, collapsed := false, visible := false,
          totalChildren := 2, highlightState := none, depth := -1, replyCount := 2 }
    [.node { id := some "b", ann := some annWb, parent := none, collapsed := true,
             visible := true, totalChildren := 0, highlightState := none, depth := 0,
             replyCount := 0 } [],
     .node { id := some "a", ann := some annWa, parent := none, collapsed := true,
             visible := true, totalChildren := 0, highlightState := none, depth := 0,
             replyCount := 0 } []]

/-- Witness for C5 at a concrete input with the created-timestamp
comparator. -/
theorem C5_sorting_witness :
    treeW.children.Pairwise (fun a b => threadLE cmpW a b = true) :=
  (C5_sorting [annWa, annWb] { sortCompareFn := cmpW, replySortCompareFn := cmpW } treeW rfl
    threadLE_cmpW_trans threadLE_cmpW_trans).1

/-! ### Claim C1: cycle safety -/

/-- Every container is stored under its own id. -/
theorem buildThreadMap_id (anns : List Ann) (m : ThreadMap)
    (h : buildThreadMap anns = some m) :
    ∀ k n, tmLookup m k = some n → n.id = k := by
  unfold buildThreadMap at h
  have hm0 : ∀ (l : List Ann) (start : ThreadMap),
      (∀ k n, tmLookup start k = some n → n.id = k) →
      ∀ k n, tmLookup (l.foldl
          (fun m a => tmSet m (annId a) { id := annId a, ann := some a }) start) k = some n →
        n.id = k := by
    intro l
    induction l with
    | nil => intro start hs; exact hs
    | cons a l ih =>
      intro start hs
      rw [List.foldl_cons]
      refine ih _ ?_
      intro k n hk
      rw [tmLookup_tmSet] at hk
      by_cases he : annId a = k
      · rw [if_pos he] at hk
        cases hk
        exact he
      · rw [if_neg he] at hk
        exact hs k n hk
  have hlink : ∀ (l : List Ann) (m0 mf : ThreadMap),
      (∀ k n, tmLookup m0 k = some n → n.id = k) →
      l.foldl (fun acc a => acc.bind (fun m => match a.references with
        | none => some m
        | some refs => setParentID m (annId a) refs)) (some m0) = some mf →
      ∀ k n, tmLookup mf k = some n → n.id = k := by
    intro l
    induction l with
    | nil =>
      intro m0 mf h0 hf
      rw [List.foldl_nil] at hf
      cases hf
      exact h0
    | cons a l ih =>
      intro m0 mf h0 hf
      rw [List.foldl_cons] at hf
      cases ha : a.references with
      | none =>
        simp only [ha, Option.some_bind] at hf
        exact ih m0 mf h0 hf
      | some refs =>
        simp only [ha, Option.some_bind] at hf
        cases hs : setParentID m0 (annId a) refs with
        | none =>
          rw [hs] at hf
          rw [show ∀ l2 : List Ann, l2.foldl (fun acc a => acc.bind (fun m =>
            match a.references with
            | none => some m
            | some refs => setParentID m (annId a) refs)) none = none from ?_] at hf
          · cases hf
          · intro l2
            induction l2 with
            | nil => rfl
            | cons b l2 ih2 => rw [List.foldl_cons, Option.none_bind]; exact ih2
        | some m1 =>
          rw [hs] at hf
          refine ih m1 mf ?_ hf
          refine setParentIDRev_ind
            (fun mm => ∀ k n, tmLookup mm k = some n → n.id = k) ?_ ?_
            refs.reverse (annId a) m0 m1 h0 hs
          · intro mm pid hnone hP k n hk
            rw [tmLookup_tmSet] at hk
            by_cases he : pid = k
            · rw [if_pos he] at hk
              cases hk
              exact he
            · rw [if_neg he] at hk
              exact hP k n hk
          · intro mm i pid node np hnode hfal hnp hch hP k n hk
            obtain ⟨n0, hl, hid, -, -, -, -⟩ := linkStep_lookup_fields mm i pid k n hk
            rw [hid]
            exact hP k n0 hl
  exact hlink anns _ m (hm0 anns [] (by intro k n hk; cases hk)) h

theorem markCollapsed_id (m : ThreadMap)
    (h : ∀ k n, tmLookup m k = some n → n.id = k) :
    ∀ k n, tmLookup (markCollapsed m) k = some n → n.id = k := by
  intro k n hk
  rw [tmLookup_markCollapsed] at hk
  cases hl : tmLookup m k with
  | none => rw [hl] at hk; cases hk
  | some n0 =>
    rw [hl] at hk
    simp only [Option.map_some', Option.some.injEq] at hk
    subst hk
    have := h k n0 hl
    by_cases htr : jsTruthy n0.parent <;> simp [htr, this]

/-- A path in the shared container graph: each step goes from a container to
one of the ids in its `children` list. -/
inductive IsCPath (m : ThreadMap) : String → List String → Prop
  | nil (k : String) : IsCPath m k []
  | cons (k k' : String) (ks : List String) (n : TNode) :
      tmLookup m k = some n → k' ∈ n.children → IsCPath m k' ks → IsCPath m k (k' :: ks)

theorem isCPath_append (m : ThreadMap) :
    ∀ (p1 : List String) (k : String), IsCPath m k p1 →
      ∀ p2, IsCPath m (p1.getLastD k) p2 → IsCPath m k (p1 ++ p2) := by
  intro p1
  induction p1 with
  | nil => intro k _ p2 h2; exact h2
  | cons k' rest ih =>
    intro k h1 p2 h2
    cases h1 with
    | cons _ _ _ n hn hmem hrest =>
      refine IsCPath.cons k k' (rest ++ p2) n hn hmem ?_
      refine ih k' hrest p2 ?_
      have : (k' :: rest).getLastD k = rest.getLastD k' := by
        cases rest <;> simp [List.getLastD]
      rwa [this] at h2

theorem optList_none {α : Type} : ∀ l : List (Option α), none ∈ l → optList l = none := by
  intro l
  induction l with
  | nil => intro h; simp at h
  | cons o rest ih =>
    intro h
    cases o with
    | none => rfl
    | some a =>
      rcases List.mem_cons.mp h with h1 | h2
      · cases h1
      · rw [optList, ih h2]
        rfl

/-- If an arbitrarily long container path leaves `k`, the expansion of `k`
with bounded recursion depth fails (models the stack of the JS recursion
growing without bound). -/
theorem toTree_none_of_path (m : ThreadMap) :
    ∀ (f : Nat) (k : String) (ks : List String), IsCPath m k ks → f ≤ ks.length →
      toTree m f k = none := by
  intro f
  induction f with
  | zero => intro k ks _ _; rfl
  | succ f ih =>
    intro k ks hpath hlen
    cases hpath with
    | nil => simp at hlen
    | cons _ k' rest n hn hmem hrest =>
      rw [toTree_succ]
      simp only [hn]
      have hchild : toTree m f k' = none := ih k' rest hrest (by simpa using hlen)
      rw [optList_none (n.children.map (toTree m f))
        (by exact hchild ▸ List.mem_map_of_mem (toTree m f) hmem)]
      rfl

/-- Iterating a container cycle produces arbitrarily long paths. -/
theorem isCPath_pump (m : ThreadMap) (k : String) (cyc : List String)
    (hne : cyc ≠ []) (hcyc : IsCPath m k cyc) (hlast : cyc.getLastD k = k) :
    ∀ nIter : Nat, ∃ ks, IsCPath m k ks ∧ nIter ≤ ks.length := by
  intro nIter
  induction nIter with
  | zero => exact ⟨[], IsCPath.nil k, by simp⟩
  | succ nIter ih =>
    obtain ⟨ks, hks, hlen⟩ := ih
    refine ⟨cyc ++ ks, isCPath_append m cyc k hcyc ks (by rw [hlast]; exact hks), ?_⟩
    have : 1 ≤ cyc.length := by
      cases cyc with
      | nil => exact absurd rfl hne
      | cons _ _ => simp
    simp only [List.length_append]
    omega

theorem ancOk_node (seen : List String) (d : ThreadData) (cs : List Thread) :
    ancOk seen (.node d cs) =
      ((match d.id with | some i => !seen.contains i | none => true) &&
        ancOkList ((match d.id with | some i => [i] | none => []) ++ seen) cs) := rfl

/-- A successfully expanded subtree never repeats an id along a rootward
path: a repeat would give a container cycle, whose unbounded unfolding would
have exhausted the recursion depth. -/
theorem toTree_ancOk (m : ThreadMap) (hid : ∀ k n, tmLookup m k = some n → n.id = k) :
    ∀ (f : Nat) (k : String) (tr : Thread), toTree m f k = some tr →
      ∀ seen : List String,
        (∀ s ∈ seen, ∃ ps, ps ≠ [] ∧ IsCPath m s ps ∧ ps.getLastD s = k) →
        ancOk seen tr = true := by
  intro f
  induction f with
  | zero => intro k tr h; cases h
  | succ f ih =>
    intro k tr h seen hseen
    have horig := h
    rw [toTree_succ] at h
    cases hlk : tmLookup m k with
    | none => simp [hlk] at h
    | some n =>
      simp only [hlk] at h
      cases hol : optList (n.children.map (toTree m f)) with
      | none => simp [hol] at h
      | some cs =>
        simp only [hol, Option.map_some', Option.some.injEq] at h
        subst h
        have hnid : n.id = k := hid k n hlk
        rw [ancOk_node]
        simp only [tnodeData, hnid]
        rw [Bool.and_eq_true]
        constructor
        · -- k itself is not among the ids of its strict ancestors
          rw [Bool.not_eq_eq_eq_not, Bool.not_true]
          by_contra hc
          simp only [Bool.not_eq_false] at hc
          have hc2 : k ∈ seen := by simpa using hc
          obtain ⟨ps, hne, hp, hl⟩ := hseen k hc2
          obtain ⟨ks, hks, hlen⟩ := isCPath_pump m k ps hne hp hl (f + 1)
          rw [toTree_none_of_path m (f + 1) k ks hks hlen] at horig
          cases horig
        · rw [ancOkList_eq, List.all_eq_true]
          intro c hc
          obtain ⟨k', hk', he⟩ := List.mem_map.mp (optList_mem _ cs hol c hc)
          refine ih k' c he (k :: seen) ?_
          intro s hs
          rcases List.mem_cons.mp hs with h1 | h2
          · subst h1
            exact ⟨[k'], by simp, IsCPath.cons s k' [] n hlk hk' (IsCPath.nil k'),
              by simp [List.getLastD]⟩
          · obtain ⟨ps, hne, hp, hl⟩ := hseen s h2
            refine ⟨ps ++ [k'], by simp, ?_, by simp⟩
            refine isCPath_append m ps s hp [k'] ?_
            rw [hl]
            exact IsCPath.cons k k' [] n hlk hk' (IsCPath.nil k')

theorem threadAnns_ancOk (anns : List Ann) (t0 : Thread) (h : threadAnns anns = some t0) :
    ancOk [] t0 = true := by
  obtain ⟨m1, hb, roots, hol, rfl⟩ := threadAnns_shape anns t0 h
  rw [ancOk_node]
  simp only [Bool.true_and]
  rw [ancOkList_eq, List.all_eq_true]
  intro c hc
  obtain ⟨k', hk', he⟩ := List.mem_map.mp (optList_mem _ roots hol c hc)
  exact toTree_ancOk (markCollapsed m1)
    (markCollapsed_id m1 (buildThreadMap_id anns m1 hb)) _ k' c he []
    (by intro s hs; simp at hs)

theorem ancOk_mapThread (f : Thread → Thread) (hidf : ∀ s, (f s).data.id = s.data.id) :
    ∀ (t : Thread) (seen : List String), ancOk seen t = true →
      ancOk seen (mapThread f t) = true := by
  intro t
  induction t using threadInd with
  | h d cs ih =>
    intro seen hok
    rw [mapThread_node, ancOk_node]
    rw [ancOk_node] at hok
    rw [hidf (.node d cs), Thread.data_node]
    rw [Bool.and_eq_true] at hok ⊢
    refine ⟨hok.1, ?_⟩
    rw [ancOkList_eq, List.all_eq_true]
    have h2 := hok.2
    rw [ancOkList_eq, List.all_eq_true] at h2
    intro c' hc'
    obtain ⟨c, hc, rfl⟩ := List.mem_map.mp hc'
    exact ih c hc _ (h2 c hc)

theorem ancOkList_sublist (seen : List String) (cs : List Thread) (g : Thread → Bool)
    (h : ancOkList seen cs = true) : ancOkList seen (cs.filter g) = true := by
  rw [ancOkList_eq, List.all_eq_true] at h ⊢
  intro c hc
  exact h c (List.mem_of_mem_filter hc)

theorem ancOk_sortThread (cmp rcmp : Ann → Ann → Bool) :
    ∀ (t : Thread) (seen : List String), ancOk seen t = true →
      ancOk seen (sortThread cmp rcmp t) = true := by
  intro t
  induction t using threadInd generalizing cmp rcmp with
  | h d cs ih =>
    intro seen hok
    rw [sortThread_node, ancOk_node]
    rw [ancOk_node, Bool.and_eq_true] at hok
    rw [Bool.and_eq_true]
    refine ⟨hok.1, ?_⟩
    rw [ancOkList_eq, List.all_eq_true]
    have h2 := hok.2
    rw [ancOkList_eq, List.all_eq_true] at h2
    intro c' hc'
    have hc2 := (jsSortList_perm (threadLE cmp) (cs.map (sortThread rcmp rcmp))).mem_iff.mp hc'
    obtain ⟨c, hc, rfl⟩ := List.mem_map.mp hc2
    exact ih c hc rcmp rcmp _ (h2 c hc)

theorem ancOk_count :
    ∀ (t : Thread) (dep : Int) (seen : List String), ancOk seen t = true →
      ancOk seen (countRepliesAndDepth t dep) = true := by
  intro t
  induction t using threadInd with
  | h d cs ih =>
    intro dep seen hok
    rw [countRepliesAndDepth_data, ancOk_node]
    rw [ancOk_node, Bool.and_eq_true] at hok
    rw [Bool.and_eq_true]
    refine ⟨hok.1, ?_⟩
    rw [countRepliesAndDepthList_eq, ancOkList_eq, List.all_eq_true]
    have h2 := hok.2
    rw [ancOkList_eq, List.all_eq_true] at h2
    intro c' hc'
    obtain ⟨c, hc, rfl⟩ := List.mem_map.mp hc'
    exact ih c hc _ _ (h2 c hc)

theorem ancOk_filter_root (seen : List String) (t : Thread) (g : Thread → Bool)
    (h : ancOk seen t = true) : ancOk seen (.node t.data (t.children.filter g)) = true := by
  cases t with
  | node d cs =>
    rw [Thread.data_node, Thread.children_node, ancOk_node]
    rw [ancOk_node, Bool.and_eq_true] at h
    rw [Bool.and_eq_true]
    exact ⟨h.1, ancOkList_sublist _ cs g h.2⟩

def annA : Ann := { id := some "a", references := some ["b"] }
def annB : Ann := { id := some "b", references := some ["a"] }
def annXX : Ann := { id := some "x", references := some ["x"] }

/-- Counterexample to C1 as stated: the construction does not always refuse
to create a cycle in the parent relation.  For a single self-referencing
annotation (`x` references `[x]`) the cycle-check walk starts above `x` and
never inspects `x` itself, so the code records `x` as its own parent — a
cycle in the parent/child relation (the node is then silently dropped from
the returned tree because a node with a parent is not a root). -/
theorem C1_counterexample :
    (buildThreadMap [annXX]).map (fun m => (tmLookup m "x").map (fun n => n.parent)) =
        some (some (some "x")) ∧
      (buildThread [annXX] {}).map treeIds = some [] := by
  exact ⟨by decide, by decide⟩

/-- **C1 amended** (`invariants`): whenever `buildThread` returns a tree, no
node reachable from the returned root is its own ancestor (no id repeats on
any rootward path); for the mutual-reference pair A→[B], B→[A] construction
terminates with B a root holding A as its only child, neither its own
ancestor, and the cycle-forming second link is aborted without modifying
structure (B's parent stays unset).  However, the linking phase itself can
be made to record a cycle in the parent relation (see the counterexample),
so the "refuses to create a cycle" clause only holds for the returned
tree. -/
theorem C1_cycle_safety (anns : List Ann) (opts : Options) (t : Thread)
    (h : buildThread anns opts = some t) :
    ancOk [] t = true ∧
      ((buildThread [annA, annB] {}).map (fun tr => (treeIds tr, ancOk [] tr)) =
        some (["b", "a"], true)) ∧
      ((buildThreadMap [annA, annB]).map (fun m =>
          ((tmLookup m "a").map (fun n => n.parent),
           (tmLookup m "b").map (fun n => n.parent))) =
        some (some (some "b"), some none)) := by
  refine ⟨?_, by decide, by decide⟩
  obtain ⟨t0, ht0, rfl⟩ := buildThread_eq_pipeline anns opts t h
  have h0 := threadAnns_ancOk anns t0 ht0
  have h1 : ancOk [] (passSelection opts t0) = true := by
    unfold passSelection
    by_cases hsel : opts.selected.length > 0
    · rw [if_pos hsel]
      exact ancOk_filter_root [] t0 _ h0
    · rwa [if_neg hsel]
  have h2 := ancOk_mapThread (visTransform opts) (visTransform_id opts) _ [] h1
  have h3 := ancOk_mapThread (expTransform opts)
    (fun s => (expTransform_fields opts s).1) _ [] h2
  have h4 : ancOk [] (passPrune (mapThread (expTransform opts)
      (mapThread (visTransform opts) (passSelection opts t0)))) = true :=
    ancOk_filter_root [] _ _ h3
  have h5 : ancOk [] (passThreadFilter opts (passPrune (mapThread (expTransform opts)
      (mapThread (visTransform opts) (passSelection opts t0))))) = true := by
    unfold passThreadFilter
    cases hf : opts.threadFilterFn with
    | none => exact h4
    | some f => exact ancOk_filter_root [] _ _ h4
  exact ancOk_count _ (-1) [] (ancOk_sortThread _ _ _ [] h5)

/-- Witness for C1 at a concrete input. -/
theorem C1_cycle_safety_witness : ancOk [] treeP = true :=
  (C1_cycle_safety [annP] {} treeP rfl).1

/-! ### Claims C2 and C9: the well-formedness invariant of the linking phase -/

/-- The truthy value of an identifier expression (`undefined` and `""` both
behave as "no value" in the walks). -/
def truthyOf : Option String → Option String
  | some g => if g = "" then none else some g
  | none => none

/-- The truthy parent of container `k`. -/
def parentT (m : ThreadMap) (k : String) : Option String :=
  truthyOf (rawP m k)

/-- One upward step: `b` is the truthy parent of `a`. -/
def pstep (m : ThreadMap) (a b : String) : Prop := parentT m a = some b

/-- Termination of upward walks from `k`: accessibility of `k` under
"is linked below". -/
def UpAcc (m : ThreadMap) (k : String) : Prop :=
  Acc (fun b a => parentT m a = some b) k

/-- The set of containers the `while` walk starting at raw value `gp`
visits. -/
def OptReach (m : ThreadMap) (gp : Option String) (j : String) : Prop :=
  ∃ g, truthyOf gp = some g ∧ Relation.ReflTransGen (pstep m) g j

theorem jsTruthy_truthyOf (o : Option String) :
    jsTruthy o = true ↔ ∃ g, truthyOf o = some g := by
  cases o with
  | none => simp [jsTruthy, truthyOf]
  | some g =>
    by_cases hg : g = "" <;> simp [jsTruthy, truthyOf, hg]

theorem jsTruthy_false_truthyOf (o : Option String) (h : jsTruthy o = false) :
    truthyOf o = none := by
  cases o with
  | none => rfl
  | some g =>
    simp only [jsTruthy] at h
    simp only [truthyOf]
    rw [if_pos (by simpa using h)]

theorem acyclic_of_upAcc (m : ThreadMap) (g : String) (h : UpAcc m g) :
    ¬ Relation.TransGen (pstep m) g g := by
  unfold UpAcc at h
  induction h with
  | intro g hacc ih =>
    intro hcyc
    obtain ⟨b, hb, hrest⟩ := Relation.TransGen.head'_iff.mp hcyc
    exact ih b hb (Relation.TransGen.tail' hrest hb)

theorem parentT_lookup (m : ThreadMap) (k : String) :
    parentT m k = (tmLookup m k).bind (fun n => truthyOf n.parent) := by
  unfold parentT rawP
  cases tmLookup m k <;> rfl

theorem parentT_some_key (m : ThreadMap) (c p : String) (h : parentT m c = some p) :
    c ∈ tmKeys m := by
  rw [parentT_lookup] at h
  cases hl : tmLookup m c with
  | none => rw [hl] at h; cases h
  | some n => exact tmLookup_mem_keys m c n hl

theorem pstep_det (m : ThreadMap) (a b1 b2 : String) (h1 : pstep m a b1)
    (h2 : pstep m a b2) : b1 = b2 := by
  unfold pstep at h1 h2
  rw [h1] at h2
  exact (Option.some.injEq _ _).mp h2

/-- Upward chains from a common start are linearly ordered (the parent field
is a function). -/
theorem rtg_comparable (m : ThreadMap) (x a b : String)
    (ha : Relation.ReflTransGen (pstep m) x a) :
    Relation.ReflTransGen (pstep m) x b →
      Relation.ReflTransGen (pstep m) a b ∨ Relation.ReflTransGen (pstep m) b a := by
  induction ha using Relation.ReflTransGen.head_induction_on with
  | refl => intro hb; exact Or.inl hb
  | head hxy hya ih =>
    intro hxb
    rcases hxb.cases_head with rfl | ⟨c, hxc, hcb⟩
    · exact Or.inr (Relation.ReflTransGen.head hxy hya)
    · cases pstep_det m _ _ _ hxy hxc
      exact ih hcb

theorem upAcc_sub (m m' : ThreadMap)
    (hsub : ∀ x y, parentT m' x = some y → parentT m x = some y) :
    ∀ k, UpAcc m k → UpAcc m' k := by
  intro k h
  unfold UpAcc at h ⊢
  induction h with
  | intro x hx ih => exact Acc.intro x (fun y hy => ih y (hsub x y hy))

/-- The well-formedness invariant of the map maintained by the linking phase
on inputs whose reference chains have no empty entry and no immediate
self-reference: keys are unique, truthy parents point at keys, the parent
relation is acyclic, and the `children` lists are exactly the (duplicate-free)
fibers of the parent relation. -/
structure WFC (m : ThreadMap) : Prop where
  nodupKeys : (tmKeys m).Nodup
  parentKeys : ∀ k n, tmLookup m k = some n → ∀ g, truthyOf n.parent = some g → g ∈ tmKeys m
  acyclic : ∀ k, UpAcc m k
  csound : ∀ p np, tmLookup m p = some np → ∀ c ∈ np.children, parentT m c = some p
  ccomplete : ∀ c p, parentT m c = some p → ∃ np, tmLookup m p = some np ∧ c ∈ np.children
  cnodup : ∀ p np, tmLookup m p = some np → np.children.Nodup

theorem tmKeys_tmSet_exist (m : ThreadMap) (k : String) (v : TNode)
    (h : m.any (fun p => p.1 = k) = true) : tmKeys (tmSet m k v) = tmKeys m := by
  unfold tmSet
  rw [if_pos h]
  unfold tmKeys
  rw [List.map_map]
  exact List.map_congr_left (fun p _ => by by_cases hp : p.1 = k <;> simp [hp])

theorem tmKeys_tmSet_mem (m : ThreadMap) (k : String) (v : TNode) (k' : String)
    (h : k' ∈ tmKeys m) : k' ∈ tmKeys (tmSet m k v) := by
  by_cases hmem : m.any (fun p => p.1 = k) = true
  · rw [tmKeys_tmSet_exist m k v hmem]; exact h
  · rw [tmKeys_tmSet_new m k v (tmLookup_eq_none_of_not_any m k hmem)]
    exact List.mem_append_left _ h

theorem tmKeys_linkStep (m : ThreadMap) (i pid : String) :
    tmKeys (linkStep m i pid) = tmKeys m := by
  unfold linkStep
  rw [tmKeys_tmUpdate, tmKeys_tmUpdate]

theorem tmKeys_markCollapsed (m : ThreadMap) :
    tmKeys (markCollapsed m) = tmKeys m := by
  unfold tmKeys markCollapsed
  rw [List.map_map]
  exact List.map_congr_left (fun p _ => by
    by_cases h : jsTruthy p.2.parent <;> simp [h])

theorem markCollapsed_length (m : ThreadMap) :
    (markCollapsed m).length = m.length := by
  simp [markCollapsed]

theorem tmLookup_of_mem_nodup (m : ThreadMap) (p : String × TNode)
    (hnd : (tmKeys m).Nodup) (h : p ∈ m) : tmLookup m p.1 = some p.2 := by
  induction m with
  | nil => simp at h
  | cons q m ih =>
    rw [tmKeys_cons, List.nodup_cons] at hnd
    rw [tmLookup_cons]
    rcases List.mem_cons.mp h with rfl | hm
    · rw [if_pos rfl]
    · have hq : ¬ q.1 = p.1 := fun he =>
        hnd.1 (by rw [he]; exact List.mem_map_of_mem (fun r => r.1) hm)
      rw [if_neg hq]
      exact ih hnd.2 hm

theorem mem_of_tmLookup (m : ThreadMap) (k : String) (n : TNode)
    (h : tmLookup m k = some n) : (k, n) ∈ m := by
  unfold tmLookup at h
  cases hf : m.find? (fun p => p.1 = k) with
  | none => rw [hf] at h; cases h
  | some p =>
    rw [hf] at h
    have hp := List.find?_some hf
    have hpk : p.1 = k := of_decide_eq_true hp
    have hpn : p.2 = n := by simpa using h
    have := List.mem_of_find?_eq_some hf
    rwa [← hpk, ← hpn]

/-- Negative soundness of the walk: if the walk ends at a falsy value without
meeting `i`, then no upward chain from its truthy start reaches `i`. -/
theorem chase_false_not_reach (m : ThreadMap) (i : String) :
    ∀ (fuel : Nat) (gp : Option String), chase m i gp fuel = some false →
      ∀ g, truthyOf gp = some g → ¬ Relation.ReflTransGen (pstep m) g i := by
  intro fuel
  induction fuel with
  | zero => intro gp h; cases h
  | succ fuel ih =>
    intro gp h g hg hreach
    cases gp with
    | none => cases hg
    | some g0 =>
      by_cases hg0 : g0 = ""
      · rw [truthyOf, if_pos hg0] at hg; cases hg
      · rw [truthyOf, if_neg hg0] at hg
        cases hg
        by_cases hgi : g = i
        · subst hgi
          rw [show chase m g (some g) (fuel + 1) = some true by simp [chase, hg0]] at h
          cases h
        · rw [show chase m i (some g) (fuel + 1) = chase m i (rawP m g) fuel by
            simp [chase, hg0, hgi]] at h
          rcases hreach.cases_head with he | ⟨c, hc, hcb⟩
          · exact hgi he
          · exact ih (rawP m g) h c hc hcb

/-- Adequacy of the fuel: in a map with unique keys, key-valued parents and an
acyclic parent relation, the walk always ends within `m.length + 1` steps
(it visits pairwise distinct keys). -/
theorem chase_isSome (m : ThreadMap) (i : String)
    (hnd : (tmKeys m).Nodup)
    (hpk : ∀ k n, tmLookup m k = some n → ∀ g, truthyOf n.parent = some g → g ∈ tmKeys m)
    (hacy : ∀ k, UpAcc m k) :
    ∀ (fuel : Nat) (gp : Option String) (seen : List String),
      seen.Nodup → (∀ s ∈ seen, s ∈ tmKeys m) →
      (∀ g, truthyOf gp = some g → g ∈ tmKeys m) →
      (∀ g, truthyOf gp = some g → g ∉ seen) →
      (∀ g, truthyOf gp = some g → ∀ s ∈ seen, Relation.TransGen (pstep m) s g) →
      m.length + 1 ≤ fuel + seen.length →
      (chase m i gp fuel).isSome = true := by
  intro fuel
  induction fuel with
  | zero =>
    intro gp seen hn hsub _ _ _ hcount
    exfalso
    have hlen : seen.length ≤ (tmKeys m).length :=
      (List.subperm_of_subset hn (fun s hs => hsub s hs)).length_le
    have hkl : (tmKeys m).length = m.length := by simp [tmKeys]
    omega
  | succ fuel ih =>
    intro gp seen hnodup hsub hkey hnot hanc hcount
    cases gp with
    | none => rfl
    | some g0 =>
      by_cases hg0 : g0 = ""
      · subst hg0; simp [chase]
      · by_cases hgi : g0 = i
        · subst hgi
          simp [chase, hg0]
        · have hgt : truthyOf (some g0) = some g0 := by rw [truthyOf, if_neg hg0]
          have hg0key : g0 ∈ tmKeys m := hkey g0 hgt
          have hg0not : g0 ∉ seen := hnot g0 hgt
          have hganc := hanc g0 hgt
          rw [show chase m i (some g0) (fuel + 1) = chase m i (rawP m g0) fuel by
            simp [chase, hg0, hgi]]
          obtain ⟨n, hln⟩ := tmLookup_of_mem_keys m g0 hg0key
          have hraw : rawP m g0 = n.parent := by unfold rawP; rw [hln]; rfl
          refine ih (rawP m g0) (g0 :: seen) (List.nodup_cons.mpr ⟨hg0not, hnodup⟩) ?_ ?_ ?_ ?_ ?_
          · intro s hs
            rcases List.mem_cons.mp hs with rfl | hs
            · exact hg0key
            · exact hsub s hs
          · intro g' hg'
            rw [hraw] at hg'
            exact hpk g0 n hln g' hg'
          · intro g' hg' hmem
            have hps : pstep m g0 g' := hg'
            rcases List.mem_cons.mp hmem with rfl | hmem
            · exact acyclic_of_upAcc m g' (hacy g') (Relation.TransGen.single hps)
            · exact acyclic_of_upAcc m g' (hacy g')
                ((hganc g' hmem).trans (Relation.TransGen.single hps))
          · intro g' hg' s hs
            have hps : pstep m g0 g' := hg'
            rcases List.mem_cons.mp hs with rfl | hs
            · exact Relation.TransGen.single hps
            · exact (hganc s hs).trans (Relation.TransGen.single hps)
          · simp only [List.length_cons]
            omega

theorem parentT_tmSet_placeholder (m : ThreadMap) (pid : String)
    (h : tmLookup m pid = none) (x : String) :
    parentT (tmSet m pid (placeholderNode pid)) x = parentT m x := by
  rw [parentT_lookup, parentT_lookup, tmLookup_tmSet]
  by_cases hp : pid = x
  · subst hp
    rw [if_pos rfl, h]
    rfl
  · rw [if_neg hp]

theorem parentT_linkStep_ne (m : ThreadMap) (i pid x : String) (h : ¬ i = x) :
    parentT (linkStep m i pid) x = parentT m x := by
  rw [parentT_lookup, parentT_lookup, linkStep_lookup, if_neg h]
  cases tmLookup m x with
  | none => rfl
  | some n => by_cases hp : pid = x <;> simp [hp]

theorem parentT_linkStep_self (m : ThreadMap) (i pid : String) (n : TNode)
    (hl : tmLookup m i = some n) :
    parentT (linkStep m i pid) i = truthyOf (some pid) := by
  rw [parentT_lookup, linkStep_lookup, if_pos rfl, hl]
  by_cases hp : pid = i <;> simp [hp]

/-- The node being linked has no truthy parent before the link. -/
theorem parentT_none_of_falsy (m : ThreadMap) (i : String) (n : TNode)
    (hl : tmLookup m i = some n) (hfal : jsTruthy n.parent = false) :
    parentT m i = none := by
  rw [parentT_lookup, hl]
  exact jsTruthy_false_truthyOf n.parent hfal

/-- A vertex whose upward chain avoids `i` stays accessible after the link
step (none of its chain's parent fields change). -/
theorem upAcc_linkStep_avoid (m : ThreadMap) (i pid : String) :
    ∀ x, UpAcc m x → ¬ Relation.ReflTransGen (pstep m) x i →
      UpAcc (linkStep m i pid) x := by
  intro x hx
  unfold UpAcc at hx ⊢
  induction hx with
  | intro x hacc ih =>
    intro havoid
    refine Acc.intro x (fun y hy => ?_)
    have hxi : ¬ i = x := fun he => havoid (he ▸ Relation.ReflTransGen.refl)
    rw [parentT_linkStep_ne m i pid x hxi] at hy
    exact ih y hy (fun hreach => havoid (Relation.ReflTransGen.head hy hreach))

/-- The guarded link step keeps the parent relation acyclic: the walk
guarantee says `i` is not above `pid`, so the new edge `i → pid` closes no
cycle. -/
theorem upAcc_linkStep (m : ThreadMap) (i pid : String) (n : TNode)
    (hl : tmLookup m i = some n) (hfal : jsTruthy n.parent = false)
    (hne : pid ≠ i)
    (hch : ∀ g, truthyOf (rawP m pid) = some g → ¬ Relation.ReflTransGen (pstep m) g i)
    (hacy : ∀ k, UpAcc m k) :
    ∀ x, UpAcc (linkStep m i pid) x := by
  have hpid_avoid : ¬ Relation.ReflTransGen (pstep m) pid i := by
    intro hr
    rcases hr.cases_head with he | ⟨c, hc, hcb⟩
    · exact hne he
    · exact hch c hc hcb
  have hpid' : UpAcc (linkStep m i pid) pid :=
    upAcc_linkStep_avoid m i pid pid (hacy pid) hpid_avoid
  have hi' : UpAcc (linkStep m i pid) i := by
    refine Acc.intro i (fun y hy => ?_)
    rw [parentT_linkStep_self m i pid n hl] at hy
    by_cases hp0 : pid = ""
    · rw [truthyOf, if_pos hp0] at hy
      cases hy
    · rw [truthyOf, if_neg hp0] at hy
      cases hy
      exact hpid'
  intro x
  have hx := hacy x
  unfold UpAcc at hx ⊢
  induction hx with
  | intro x hacc ih =>
    by_cases hxi : x = i
    · exact hxi ▸ hi'
    · refine Acc.intro x (fun y hy => ?_)
      rw [parentT_linkStep_ne m i pid x (fun he => hxi he.symm)] at hy
      exact ih y hy

theorem wfc_tmSet_placeholder (m : ThreadMap) (pid : String)
    (h : tmLookup m pid = none) (hw : WFC m) :
    WFC (tmSet m pid (placeholderNode pid)) := by
  have hkeys : tmKeys (tmSet m pid (placeholderNode pid)) = tmKeys m ++ [pid] :=
    tmKeys_tmSet_new m pid _ h
  have hpe : ∀ x, parentT (tmSet m pid (placeholderNode pid)) x = parentT m x :=
    parentT_tmSet_placeholder m pid h
  have hpidnk : pid ∉ tmKeys m := fun hm => by
    obtain ⟨n, hn⟩ := tmLookup_of_mem_keys m pid hm
    rw [hn] at h
    cases h
  refine ⟨?_, ?_, ?_, ?_, ?_, ?_⟩
  · rw [hkeys]
    refine List.Nodup.append hw.nodupKeys (List.nodup_singleton pid) ?_
    intro a ha hb
    rw [List.mem_singleton] at hb
    exact hpidnk (hb ▸ ha)
  · intro k n hk g hg
    rw [tmLookup_tmSet] at hk
    rw [hkeys]
    by_cases hp : pid = k
    · rw [if_pos hp] at hk
      cases hk
      simp [placeholderNode, truthyOf] at hg
    · rw [if_neg hp] at hk
      exact List.mem_append_left _ (hw.parentKeys k n hk g hg)
  · intro k
    exact upAcc_sub m _ (fun x y hy => (hpe x) ▸ hy) k (hw.acyclic k)
  · intro p np hp c hc
    rw [tmLookup_tmSet] at hp
    rw [hpe c]
    by_cases he : pid = p
    · rw [if_pos he] at hp
      cases hp
      simp [placeholderNode] at hc
    · rw [if_neg he] at hp
      exact hw.csound p np hp c hc
  · intro c p hcp
    rw [hpe c] at hcp
    obtain ⟨np, hnp, hmem⟩ := hw.ccomplete c p hcp
    refine ⟨np, ?_, hmem⟩
    rw [tmLookup_tmSet, if_neg ?_]
    · exact hnp
    · intro he
      exact hpidnk (he ▸ tmLookup_mem_keys m p np hnp)
  · intro p np hp
    rw [tmLookup_tmSet] at hp
    by_cases he : pid = p
    · rw [if_pos he] at hp
      cases hp
      simp [placeholderNode]
    · rw [if_neg he] at hp
      exact hw.cnodup p np hp

/-- Lookup after a link step, split into the three relevant keys. -/
theorem linkStep_lookup_i (m : ThreadMap) (i pid : String) (n : TNode)
    (hl : tmLookup m i = some n) (hne : pid ≠ i) :
    tmLookup (linkStep m i pid) i = some { n with parent := some pid } := by
  rw [linkStep_lookup, if_pos rfl, hl]
  simp [hne]

theorem linkStep_lookup_pid (m : ThreadMap) (i pid : String) (np : TNode)
    (hl : tmLookup m pid = some np) (hne : pid ≠ i) :
    tmLookup (linkStep m i pid) pid =
      some { np with children := np.children ++ [i] } := by
  rw [linkStep_lookup, if_neg (fun he => hne he.symm), hl]
  simp

theorem linkStep_lookup_other (m : ThreadMap) (i pid k : String)
    (h1 : ¬ i = k) (h2 : ¬ pid = k) :
    tmLookup (linkStep m i pid) k = tmLookup m k := by
  rw [linkStep_lookup, if_neg h1]
  cases tmLookup m k with
  | none => rfl
  | some n => simp [h2]

theorem wfc_linkStep (m : ThreadMap) (i pid : String) (node np : TNode)
    (hli : tmLookup m i = some node) (hfal : jsTruthy node.parent = false)
    (hlp : tmLookup m pid = some np) (hne : pid ≠ i) (hpe : pid ≠ "")
    (hch : chase m i (rawP m pid) (m.length + 1) = some false)
    (hw : WFC m) : WFC (linkStep m i pid) := by
  have hpti : parentT m i = none := parentT_none_of_falsy m i node hli hfal
  have hptI : parentT (linkStep m i pid) i = some pid := by
    rw [parentT_linkStep_self m i pid node hli, truthyOf, if_neg hpe]
  have hreach := chase_false_not_reach m i (m.length + 1) (rawP m pid) hch
  refine ⟨?_, ?_, ?_, ?_, ?_, ?_⟩
  · rw [tmKeys_linkStep]
    exact hw.nodupKeys
  · intro k n hk g hg
    rw [tmKeys_linkStep]
    by_cases hik : i = k
    · subst hik
      rw [linkStep_lookup_i m i pid node hli hne] at hk
      cases hk
      rw [show ({ node with parent := some pid } : TNode).parent = some pid from rfl,
        truthyOf, if_neg hpe] at hg
      cases hg
      exact tmLookup_mem_keys m pid np hlp
    · by_cases hpk : pid = k
      · subst hpk
        rw [linkStep_lookup_pid m i pid np hlp hne] at hk
        cases hk
        exact hw.parentKeys pid np hlp g hg
      · rw [linkStep_lookup_other m i pid k hik hpk] at hk
        exact hw.parentKeys k n hk g hg
  · exact upAcc_linkStep m i pid node hli hfal hne hreach hw.acyclic
  · intro p np' hp c hc
    by_cases hip : i = p
    · subst hip
      rw [linkStep_lookup_i m i pid node hli hne] at hp
      cases hp
      rw [show ({ node with parent := some pid } : TNode).children = node.children from rfl]
        at hc
      have hold := hw.csound i node hli c hc
      have hci : ¬ i = c := fun he => by rw [← he, hpti] at hold; cases hold
      rw [parentT_linkStep_ne m i pid c hci]
      exact hold
    · by_cases hpp : pid = p
      · subst hpp
        rw [linkStep_lookup_pid m i pid np hlp hne] at hp
        cases hp
        rw [show ({ np with children := np.children ++ [i] } : TNode).children =
          np.children ++ [i] from rfl] at hc
        rcases List.mem_append.mp hc with hc | hc
        · have hold := hw.csound pid np hlp c hc
          have hci : ¬ i = c := fun he => by rw [← he, hpti] at hold; cases hold
          rw [parentT_linkStep_ne m i pid c hci]
          exact hold
        · rw [List.mem_singleton] at hc
          subst hc
          exact hptI
      · rw [linkStep_lookup_other m i pid p hip hpp] at hp
        have hold := hw.csound p np' hp c hc
        have hci : ¬ i = c := fun he => by rw [← he, hpti] at hold; cases hold
        rw [parentT_linkStep_ne m i pid c hci]
        exact hold
  · intro c p hcp
    by_cases hic : i = c
    · subst hic
      rw [hptI] at hcp
      cases hcp
      exact ⟨_, linkStep_lookup_pid m i pid np hlp hne, by simp⟩
    · rw [parentT_linkStep_ne m i pid c hic] at hcp
      obtain ⟨np0, hnp0, hmem⟩ := hw.ccomplete c p hcp
      by_cases hip : i = p
      · subst hip
        have : np0 = node := by rw [hli] at hnp0; exact (Option.some.injEq _ _).mp hnp0.symm
        subst this
        exact ⟨_, linkStep_lookup_i m i pid np0 hli hne, hmem⟩
      · by_cases hpp : pid = p
        · subst hpp
          have : np0 = np := by rw [hlp] at hnp0; exact (Option.some.injEq _ _).mp hnp0.symm
          subst this
          exact ⟨_, linkStep_lookup_pid m i pid np0 hlp hne,
            List.mem_append_left _ hmem⟩
        · exact ⟨np0, by rw [linkStep_lookup_other m i pid p hip hpp]; exact hnp0, hmem⟩
  · intro p np' hp
    by_cases hip : i = p
    · subst hip
      rw [linkStep_lookup_i m i pid node hli hne] at hp
      cases hp
      exact hw.cnodup i node hli
    · by_cases hpp : pid = p
      · subst hpp
        rw [linkStep_lookup_pid m i pid np hlp hne] at hp
        cases hp
        rw [show ({ np with children := np.children ++ [i] } : TNode).children =
          np.children ++ [i] from rfl]
        refine List.Nodup.append (hw.cnodup pid np hlp) (List.nodup_singleton i) ?_
        intro a ha hb
        rw [List.mem_singleton] at hb
        subst hb
        have := hw.csound pid np hlp a ha
        rw [hpti] at this
        cases this
      · rw [linkStep_lookup_other m i pid p hip hpp] at hp
        exact hw.cnodup p np' hp

/-- No two adjacent entries of the chain `i :: rp` coincide (`rp` is the
reversed `references` list: the successive `(id, parentID)` pairs of the
recursion). -/
def chainOK (i : String) : List String → Bool
  | [] => true
  | p :: rest => decide (p ≠ i) && chainOK p rest

/-- The goodness condition on one record under which the linking phase is
safe: every entry of `references` is non-empty and no two adjacent entries of
the chain (ending at the record's own id) coincide. -/
def goodAnn (a : Ann) : Bool :=
  match a.references with
  | none => true
  | some refs => refs.all (fun r => decide (r ≠ "")) && chainOK (annId a) refs.reverse

def goodInput (anns : List Ann) : Bool := anns.all goodAnn

/-- Main induction for claims C2 and C9: on a well-formed map, a linking call
whose chain is good returns (the walks all end within their fuel), and
well-formedness is preserved. -/
theorem setParentIDRev_wfc :
    ∀ (rp : List String) (i : String) (m : ThreadMap), WFC m →
      chainOK i rp = true → (∀ p ∈ rp, p ≠ "") →
      ∃ m', setParentIDRev m i rp = some m' ∧ WFC m' := by
  intro rp
  induction rp with
  | nil => intro i m hw _ _; exact ⟨m, rfl, hw⟩
  | cons parentID rest ih =>
    intro i m hw hchain hne
    simp only [chainOK, Bool.and_eq_true, decide_eq_true_eq] at hchain
    obtain ⟨hpi, hrest⟩ := hchain
    have hne1 : parentID ≠ "" := hne parentID (List.mem_cons_self _ _)
    have hnerest : ∀ p ∈ rest, p ≠ "" := fun p hp => hne p (List.mem_cons_of_mem _ hp)
    rw [setParentIDRev_linkStep]
    cases hli : tmLookup m i with
    | none => exact ⟨m, by simp only [hli], hw⟩
    | some node =>
      cases htr : jsTruthy node.parent with
      | true => exact ⟨m, by simp only [hli]; rw [if_pos htr], hw⟩
      | false =>
        -- the placeholder step returns, with a well-formed map in which both
        -- ends of the prospective link are present and `i` is still unlinked
        have hstep : ∃ m2, (match tmLookup m parentID with
            | some _ => some m
            | none =>
              setParentIDRev (tmSet m parentID (placeholderNode parentID)) parentID rest) =
              some m2 ∧ WFC m2 ∧ (∃ np, tmLookup m2 parentID = some np) ∧
              ∃ node2, tmLookup m2 i = some node2 ∧ jsTruthy node2.parent = false := by
          cases hlp : tmLookup m parentID with
          | some np => exact ⟨m, rfl, hw, ⟨np, hlp⟩, node, hli, htr⟩
          | none =>
            have hip : ¬ (parentID = i) := fun he => by rw [he, hli] at hlp; cases hlp
            obtain ⟨m2, hm2, hw2⟩ :=
              ih parentID _ (wfc_tmSet_placeholder m parentID hlp hw) hrest hnerest
            refine ⟨m2, hm2, hw2, ?_, ?_⟩
            · have hk1 : tmLookup (tmSet m parentID (placeholderNode parentID)) parentID =
                  some (placeholderNode parentID) := by
                rw [tmLookup_tmSet, if_pos rfl]
              obtain ⟨np, hnp, -⟩ := setParentIDRev_mono rest parentID _ m2 hm2 parentID _ hk1
              exact ⟨np, hnp⟩
            · have hi1 : tmLookup (tmSet m parentID (placeholderNode parentID)) i =
                  some node := by
                rw [tmLookup_tmSet, if_neg hip]
                exact hli
              obtain ⟨node2, hnode2, hp2⟩ := setParentIDRev_mono rest parentID _ m2 hm2 i _ hi1
              exact ⟨node2, hnode2, by rw [hp2 (fun he => hip he.symm)]; exact htr⟩
        obtain ⟨m2, hm2, hw2, ⟨np, hnp⟩, node2, hnode2, hfal2⟩ := hstep
        have hchase : (chase m2 i (rawP m2 parentID) (m2.length + 1)).isSome = true := by
          have hraw : rawP m2 parentID = np.parent := by
            unfold rawP
            rw [hnp]
            rfl
          refine chase_isSome m2 i hw2.nodupKeys hw2.parentKeys hw2.acyclic (m2.length + 1)
            (rawP m2 parentID) [] List.nodup_nil (by simp) ?_ (by simp) (by simp) (by simp)
          intro g hg
          rw [hraw] at hg
          exact hw2.parentKeys parentID np hnp g hg
        obtain ⟨b, hb⟩ := Option.isSome_iff_exists.mp hchase
        simp only [hli]
        rw [if_neg (by simp [htr]), hm2]
        cases b with
        | true =>
          refine ⟨m2, ?_, hw2⟩
          show (match chase m2 i (rawP m2 parentID) (m2.length + 1) with
            | none => none
            | some true => some m2
            | some false => some (linkStep m2 i parentID)) = some m2
          rw [hb]
        | false =>
          refine ⟨linkStep m2 i parentID, ?_,
            wfc_linkStep m2 i parentID node2 np hnode2 hfal2 hnp
              (fun he => hpi he) hne1 hb hw2⟩
          show (match chase m2 i (rawP m2 parentID) (m2.length + 1) with
            | none => none
            | some true => some m2
            | some false => some (linkStep m2 i parentID)) = some (linkStep m2 i parentID)
          rw [hb]

/-- A map with unique keys whose containers all have no parent and no
children is well-formed. -/
theorem wfc_of_plain (m : ThreadMap) (hnd : (tmKeys m).Nodup)
    (h : ∀ k n, tmLookup m k = some n → n.parent = none ∧ n.children = []) : WFC m := by
  have hpt : ∀ k, parentT m k = none := by
    intro k
    rw [parentT_lookup]
    cases hl : tmLookup m k with
    | none => rfl
    | some n => simp [(h k n hl).1, truthyOf]
  refine ⟨hnd, ?_, ?_, ?_, ?_, ?_⟩
  · intro k n hk g hg
    rw [(h k n hk).1] at hg
    simp [truthyOf] at hg
  · intro k
    exact Acc.intro k (fun y hy => by rw [hpt k] at hy; cases hy)
  · intro p np hp c hc
    rw [(h p np hp).2] at hc
    simp at hc
  · intro c p hcp
    rw [hpt c] at hcp
    cases hcp
  · intro p np hp
    rw [(h p np hp).2]
    exact List.nodup_nil

theorem tmKeys_tmSet_nodup (m : ThreadMap) (k : String) (v : TNode)
    (h : (tmKeys m).Nodup) : (tmKeys (tmSet m k v)).Nodup := by
  by_cases hmem : m.any (fun p => p.1 = k) = true
  · rw [tmKeys_tmSet_exist m k v hmem]
    exact h
  · have hnone := tmLookup_eq_none_of_not_any m k hmem
    rw [tmKeys_tmSet_new m k v hnone]
    refine List.Nodup.append h (List.nodup_singleton k) ?_
    intro a ha hb
    rw [List.mem_singleton] at hb
    subst hb
    obtain ⟨n, hn⟩ := tmLookup_of_mem_keys m a ha
    rw [hn] at hnone
    cases hnone

/-- The indexing loop produces a plain well-formed map. -/
theorem index_wfc (anns : List Ann) :
    ∀ start : ThreadMap, (tmKeys start).Nodup →
      (∀ k n, tmLookup start k = some n → n.parent = none ∧ n.children = []) →
      (tmKeys (anns.foldl
          (fun m a => tmSet m (annId a) { id := annId a, ann := some a }) start)).Nodup ∧
      ∀ k n, tmLookup (anns.foldl
          (fun m a => tmSet m (annId a) { id := annId a, ann := some a }) start) k = some n →
        n.parent = none ∧ n.children = [] := by
  induction anns with
  | nil => intro start h1 h2; exact ⟨h1, h2⟩
  | cons a anns ih =>
    intro start h1 h2
    rw [List.foldl_cons]
    refine ih _ (tmKeys_tmSet_nodup start (annId a) _ h1) ?_
    intro k n hk
    rw [tmLookup_tmSet] at hk
    by_cases he : annId a = k
    · rw [if_pos he] at hk
      cases hk
      exact ⟨rfl, rfl⟩
    · rw [if_neg he] at hk
      exact h2 k n hk

/-- Linking a good input: the whole map-construction phase returns and its
result is well-formed. -/
theorem buildThreadMap_wfc (anns : List Ann) (hg : goodInput anns = true) :
    ∃ m, buildThreadMap anns = some m ∧ WFC m := by
  unfold buildThreadMap
  have hm0 := index_wfc anns [] List.nodup_nil (by intro k n hk; cases hk)
  have hw0 : WFC (anns.foldl
      (fun m a => tmSet m (annId a) { id := annId a, ann := some a }) []) :=
    wfc_of_plain _ hm0.1 hm0.2
  unfold goodInput at hg
  rw [List.all_eq_true] at hg
  have hfold : ∀ (l : List Ann) (m0 : ThreadMap), WFC m0 → (∀ a ∈ l, goodAnn a = true) →
      ∃ mf, l.foldl (fun acc a => acc.bind (fun m => match a.references with
        | none => some m
        | some refs => setParentID m (annId a) refs)) (some m0) = some mf ∧ WFC mf := by
    intro l
    induction l with
    | nil => intro m0 hw _; exact ⟨m0, rfl, hw⟩
    | cons a l ihl =>
      intro m0 hw hall
      rw [List.foldl_cons, Option.some_bind]
      cases ha : a.references with
      | none =>
        simp only [ha]
        exact ihl m0 hw (fun b hb => hall b (List.mem_cons_of_mem _ hb))
      | some refs =>
        have hga := hall a (List.mem_cons_self _ _)
        simp only [goodAnn, ha, Bool.and_eq_true] at hga
        obtain ⟨m1, hs, hw1⟩ := setParentIDRev_wfc refs.reverse (annId a) m0 hw hga.2 (by
          intro p hp
          exact of_decide_eq_true
            (List.all_eq_true.mp hga.1 p (List.mem_reverse.mp hp)))
        simp only [ha]
        rw [show setParentID m0 (annId a) refs = some m1 from hs]
        exact ihl m1 hw1 (fun b hb => hall b (List.mem_cons_of_mem _ hb))
  exact hfold anns _ hw0 hg

theorem parentT_markCollapsed (m : ThreadMap) (x : String) :
    parentT (markCollapsed m) x = parentT m x := by
  rw [parentT_lookup, parentT_lookup, tmLookup_markCollapsed]
  cases tmLookup m x with
  | none => rfl
  | some n => by_cases h : jsTruthy n.parent <;> simp [h]

/-- Marking the roots collapsed only touches the `collapsed` field, so it
preserves well-formedness. -/
theorem wfc_markCollapsed (m : ThreadMap) (hw : WFC m) : WFC (markCollapsed m) := by
  have hfields : ∀ k n, tmLookup (markCollapsed m) k = some n →
      ∃ n0, tmLookup m k = some n0 ∧ n.parent = n0.parent ∧ n.children = n0.children := by
    intro k n hk
    rw [tmLookup_markCollapsed] at hk
    cases hl : tmLookup m k with
    | none => rw [hl] at hk; cases hk
    | some n0 =>
      rw [hl] at hk
      simp only [Option.map_some', Option.some.injEq] at hk
      subst hk
      by_cases h : jsTruthy n0.parent <;> simp [h]
  refine ⟨?_, ?_, ?_, ?_, ?_, ?_⟩
  · rw [tmKeys_markCollapsed]
    exact hw.nodupKeys
  · intro k n hk g hg
    obtain ⟨n0, hl, hp, -⟩ := hfields k n hk
    rw [tmKeys_markCollapsed]
    rw [hp] at hg
    exact hw.parentKeys k n0 hl g hg
  · intro k
    exact upAcc_sub m _ (fun x y hy => (parentT_markCollapsed m x) ▸ hy) k (hw.acyclic k)
  · intro p np hp c hc
    obtain ⟨n0, hl, -, hch⟩ := hfields p np hp
    rw [hch] at hc
    rw [parentT_markCollapsed]
    exact hw.csound p n0 hl c hc
  · intro c p hcp
    rw [parentT_markCollapsed] at hcp
    obtain ⟨np, hnp, hmem⟩ := hw.ccomplete c p hcp
    refine ⟨if jsTruthy np.parent then np else { np with collapsed := true }, ?_, ?_⟩
    · rw [tmLookup_markCollapsed, hnp]
      rfl
    · by_cases h : jsTruthy np.parent <;> simp [h, hmem]
  · intro p np hp
    obtain ⟨n0, hl, -, hch⟩ := hfields p np hp
    rw [hch]
    exact hw.cnodup p n0 hl

theorem optList_isSome {α : Type} :
    ∀ l : List (Option α), (∀ x ∈ l, x.isSome = true) → (optList l).isSome = true := by
  intro l
  induction l with
  | nil => intro _; rfl
  | cons o rest ih =>
    intro h
    have ho := h o (List.mem_cons_self _ _)
    cases o with
    | none => simp at ho
    | some a =>
      rw [optList]
      have hr := ih (fun x hx => h x (List.mem_cons_of_mem _ hx))
      cases hrest : optList rest with
      | none => rw [hrest] at hr; cases hr
      | some l' => rfl

theorem rootIds_sublist (m : ThreadMap) : (rootIds m).Sublist (tmKeys m) := by
  unfold rootIds tmKeys
  exact (List.filter_sublist m).map (fun p => p.1)

/-- With the children lists exactly matching the acyclic parent relation, the
recursive expansion bottoms out within `m.length + 1` levels: any chain of
nested children is a chain of pairwise distinct keys. -/
theorem toTree_isSome (m : ThreadMap) (hw : WFC m) :
    ∀ (fuel : Nat) (k : String) (seen : List String),
      seen.Nodup → (∀ s ∈ seen, s ∈ tmKeys m) → k ∈ tmKeys m → k ∉ seen →
      (∀ s ∈ seen, Relation.TransGen (pstep m) k s) →
      m.length + 1 ≤ fuel + seen.length →
      (toTree m fuel k).isSome = true := by
  intro fuel
  induction fuel with
  | zero =>
    intro k seen hn hsub hk hknot _ hcount
    exfalso
    have h1 : (k :: seen).Nodup := List.nodup_cons.mpr ⟨hknot, hn⟩
    have h2 : ∀ x ∈ k :: seen, x ∈ tmKeys m := by
      intro x hx
      rcases List.mem_cons.mp hx with rfl | hx
      · exact hk
      · exact hsub x hx
    have hlen : (k :: seen).length ≤ (tmKeys m).length :=
      (List.subperm_of_subset h1 (fun x hx => h2 x hx)).length_le
    have hkl : (tmKeys m).length = m.length := by simp [tmKeys]
    simp only [List.length_cons] at hlen
    omega
  | succ fuel ih =>
    intro k seen hnodup hsub hk hknot hanc hcount
    obtain ⟨n, hln⟩ := tmLookup_of_mem_keys m k hk
    rw [toTree_succ]
    simp only [hln]
    rw [Option.isSome_map']
    refine optList_isSome _ ?_
    intro x hx
    obtain ⟨c, hc, rfl⟩ := List.mem_map.mp hx
    have hck : pstep m c k := hw.csound k n hln c hc
    have hckey : c ∈ tmKeys m := parentT_some_key m c k hck
    refine ih c (k :: seen) (List.nodup_cons.mpr ⟨hknot, hnodup⟩) ?_ hckey ?_ ?_ ?_
    · intro s hs
      rcases List.mem_cons.mp hs with rfl | hs
      · exact hk
      · exact hsub s hs
    · intro hmem
      rcases List.mem_cons.mp hmem with rfl | hmem
      · exact acyclic_of_upAcc m c (hw.acyclic c) (Relation.TransGen.single hck)
      · exact acyclic_of_upAcc m c (hw.acyclic c)
          ((Relation.TransGen.single hck).trans (hanc c hmem))
    · intro s hs
      rcases List.mem_cons.mp hs with rfl | hs
      · exact Relation.TransGen.single hck
      · exact (Relation.TransGen.single hck).trans (hanc s hs)
    · simp only [List.length_cons]
      omega

/-- On good input the whole construction returns a tree. -/
theorem threadAnns_isSome (anns : List Ann) (hg : goodInput anns = true) :
    (threadAnns anns).isSome = true := by
  obtain ⟨m1, hb, hw1⟩ := buildThreadMap_wfc anns hg
  have hw2 := wfc_markCollapsed m1 hw1
  unfold threadAnns
  rw [hb, Option.some_bind, Option.isSome_map']
  refine optList_isSome _ ?_
  intro x hx
  obtain ⟨r, hr, rfl⟩ := List.mem_map.mp hx
  have hrk : r ∈ tmKeys (markCollapsed m1) := (rootIds_sublist _).subset hr
  refine toTree_isSome (markCollapsed m1) hw2 _ r [] List.nodup_nil (by simp) hrk
    (by simp) (by simp) ?_
  simp

def annYX : Ann := { id := some "y", references := some ["x"] }

/-- The id map right after the indexing loop on `[annXX, annYX]`. -/
def mIndexedLoop : ThreadMap :=
  [("x", { id := "x", ann := some annXX }), ("y", { id := "y", ann := some annYX })]

/-- The id map after the (unguarded) self-link of `x`: `x` is its own
parent. -/
def mLoop : ThreadMap :=
  [("x", { id := "x", ann := some annXX, parent := some "x", children := ["x"] }),
   ("y", { id := "y", ann := some annYX })]

/-- Counterexample to C2 as stated: `buildThread` does not terminate for
every annotation list.  A self-referencing annotation `x` gets recorded as
its own parent; when a second annotation `y` referencing `x` is then linked,
the cycle-check walk of `setParentID` follows `x → x → ⋯` and never ends
(`chase` returns `none` — stepping to the same configuration — for every
fuel), which the embedding reports as `buildThread = none`. -/
theorem C2_counterexample :
    (buildThread [annXX, annYX] {}).isNone = true ∧
      setParentID mIndexedLoop "x" ["x"] = some mLoop ∧
      ∀ fuel, chase mLoop "y" (some "x") fuel = none := by
  refine ⟨by decide, by decide, ?_⟩
  intro fuel
  induction fuel with
  | zero => rfl
  | succ fuel ih =>
    rw [show chase mLoop "y" (some "x") (fuel + 1) = chase mLoop "y" (some "x") fuel from rfl]
    exact ih

/-- **C2 amended** (`termination_resources`): `buildThread` terminates for
every options value and every annotation list in which each record's
`references` entries are non-empty and no two adjacent entries of the chain
`[...references, id]` coincide; in particular every upward ancestor-chain
walk performed in `setParentID` ends within the number of containers.  (For
arbitrary reference data the construction can instead loop forever, see the
counterexample.) -/
theorem C2_termination (anns : List Ann) (opts : Options) (hg : goodInput anns = true) :
    (buildThread anns opts).isSome = true := by
  unfold buildThread
  rw [Option.isSome_map']
  exact threadAnns_isSome anns hg

/-- Witness for C2 at a concrete input. -/
theorem C2_termination_witness :
    goodInput [annP, annC] = true ∧ (buildThread [annP, annC] {}).isSome = true :=
  ⟨by decide, C2_termination [annP, annC] {} (by decide)⟩

theorem optList_mem_input {α : Type} :
    ∀ (l : List (Option α)) (xs : List α), optList l = some xs →
      ∀ o ∈ l, ∃ x ∈ xs, o = some x := by
  intro l
  induction l with
  | nil =>
    intro xs h o ho
    simp at ho
  | cons o0 rest ih =>
    intro xs h o ho
    cases o0 with
    | none => cases h
    | some a =>
      rw [optList] at h
      cases hrest : optList rest with
      | none => rw [hrest] at h; cases h
      | some l' =>
        rw [hrest] at h
        simp only [Option.map_some', Option.some.injEq] at h
        subst h
        rcases List.mem_cons.mp ho with rfl | ho
        · exact ⟨a, List.mem_cons_self _ _, rfl⟩
        · obtain ⟨x, hx, he⟩ := ih l' hrest o ho
          exact ⟨x, List.mem_cons_of_mem _ hx, he⟩

/-- Two distinct children of the same container are never on a common upward
chain. -/
theorem no_rtg_sibling (m : ThreadMap) (hacy : ∀ k, UpAcc m k) (k a b : String)
    (ha : pstep m a k) (hb : pstep m b k) (hne : a ≠ b)
    (h : Relation.ReflTransGen (pstep m) a b) : False := by
  rcases h.cases_head with he | ⟨y, hay, hyb⟩
  · exact hne he
  · cases pstep_det m a k y ha hay
    exact acyclic_of_upAcc m b (hacy b) (Relation.TransGen.head' hb hyb)

theorem no_rtg_root (m : ThreadMap) (a b : String) (hpa : parentT m a = none)
    (hne : a ≠ b) (h : Relation.ReflTransGen (pstep m) a b) : False := by
  rcases h.cases_head with he | ⟨y, hy, -⟩
  · exact hne he
  · have hy' : parentT m a = some y := hy
    rw [hpa] at hy'
    cases hy'

/-- Ids collected over a forest of expansions whose top keys have pairwise
disjoint upward-reachability cones: each id reaches one of the keys, and
the whole collection is duplicate-free. -/
theorem forest_ids (m : ThreadMap) (fuel : Nat)
    (hA : ∀ k t, toTree m fuel k = some t →
      (∀ x ∈ treeIds t, Relation.ReflTransGen (pstep m) x k) ∧ (treeIds t).Nodup) :
    ∀ (ks : List String) (cs : List Thread), ks.Nodup →
      (∀ a ∈ ks, ∀ b ∈ ks, a ≠ b → ∀ x, Relation.ReflTransGen (pstep m) x a →
        Relation.ReflTransGen (pstep m) x b → False) →
      optList (ks.map (toTree m fuel)) = some cs →
      (∀ x ∈ treeIdsList cs, ∃ kc ∈ ks, Relation.ReflTransGen (pstep m) x kc) ∧
        (treeIdsList cs).Nodup := by
  intro ks
  induction ks with
  | nil =>
    intro cs _ _ hol
    cases hol
    exact ⟨by intro x hx; simp [treeIdsList] at hx, List.nodup_nil⟩
  | cons kc ks' ihks =>
    intro cs hnd hsep hol
    rw [List.map_cons] at hol
    cases ht : toTree m fuel kc with
    | none => rw [ht] at hol; cases hol
    | some t =>
      rw [ht, optList] at hol
      cases hrest : optList (ks'.map (toTree m fuel)) with
      | none => rw [hrest] at hol; cases hol
      | some cs' =>
        rw [hrest] at hol
        simp only [Option.map_some', Option.some.injEq] at hol
        subst hol
        obtain ⟨hsound, hnodup⟩ := hA kc t ht
        obtain ⟨hsound', hnodup'⟩ := ihks cs' (List.nodup_cons.mp hnd).2
          (fun a ha b hb => hsep a (List.mem_cons_of_mem _ ha) b (List.mem_cons_of_mem _ hb))
          hrest
        simp only [treeIdsList]
        constructor
        · intro x hx
          rcases List.mem_append.mp hx with hx | hx
          · exact ⟨kc, List.mem_cons_self _ _, hsound x hx⟩
          · obtain ⟨kc', hkc', hr⟩ := hsound' x hx
            exact ⟨kc', List.mem_cons_of_mem _ hkc', hr⟩
        · rw [List.nodup_append]
          refine ⟨hnodup, hnodup', ?_⟩
          intro x hx1 hx2
          obtain ⟨kc', hkc', hr⟩ := hsound' x hx2
          have hkcne : kc ≠ kc' := fun he => (List.nodup_cons.mp hnd).1 (he ▸ hkc')
          exact hsep kc (List.mem_cons_self _ _) kc' (List.mem_cons_of_mem _ hkc')
            hkcne x (hsound x hx1) hr

/-- Every id in a successful expansion of `k` reaches `k` upward, and no id
occurs twice (a successful expansion is a tree, not a dag or a cycle). -/
theorem toTree_ids_nodup (m : ThreadMap) (hw : WFC m)
    (hid : ∀ k n, tmLookup m k = some n → n.id = k) :
    ∀ (fuel : Nat) (k : String) (t : Thread), toTree m fuel k = some t →
      (∀ x ∈ treeIds t, Relation.ReflTransGen (pstep m) x k) ∧ (treeIds t).Nodup := by
  intro fuel
  induction fuel with
  | zero => intro k t h; cases h
  | succ fuel ih =>
    intro k t h
    rw [toTree_succ] at h
    cases hlk : tmLookup m k with
    | none => simp [hlk] at h
    | some n =>
      simp only [hlk] at h
      cases hol : optList (n.children.map (toTree m fuel)) with
      | none => simp [hol] at h
      | some cs =>
        simp only [hol, Option.map_some', Option.some.injEq] at h
        subst h
        have hids : treeIds (.node (tnodeData n) cs) = k :: treeIdsList cs := by
          rw [treeIds]
          simp [tnodeData, hid k n hlk]
        have hsep : ∀ a ∈ n.children, ∀ b ∈ n.children, a ≠ b →
            ∀ x, Relation.ReflTransGen (pstep m) x a →
              Relation.ReflTransGen (pstep m) x b → False := by
          intro a ha b hb hne x hxa hxb
          have hak : pstep m a k := hw.csound k n hlk a ha
          have hbk : pstep m b k := hw.csound k n hlk b hb
          rcases rtg_comparable m x a b hxa hxb with hcomp | hcomp
          · exact no_rtg_sibling m hw.acyclic k a b hak hbk hne hcomp
          · exact no_rtg_sibling m hw.acyclic k b a hbk hak (fun he => hne he.symm) hcomp
        obtain ⟨hsound, hnodup⟩ := forest_ids m fuel ih n.children cs
          (hw.cnodup k n hlk) hsep hol
        rw [hids]
        constructor
        · intro x hx
          rcases List.mem_cons.mp hx with rfl | hx
          · exact Relation.ReflTransGen.refl
          · obtain ⟨kc, hkc, hr⟩ := hsound x hx
            exact hr.trans (Relation.ReflTransGen.single (hw.csound k n hlk kc hkc))
        · rw [List.nodup_cons]
          refine ⟨?_, hnodup⟩
          intro hkmem
          obtain ⟨kc, hkc, hr⟩ := hsound k hkmem
          have hck : pstep m kc k := hw.csound k n hlk kc hkc
          exact acyclic_of_upAcc m kc (hw.acyclic kc) (Relation.TransGen.head' hck hr)

/-- Completeness: every key whose upward chain passes through `k` appears in
the expansion of `k`. -/
theorem toTree_ids_complete (m : ThreadMap) (hw : WFC m)
    (hid : ∀ k n, tmLookup m k = some n → n.id = k) :
    ∀ (fuel : Nat) (k : String) (t : Thread), toTree m fuel k = some t →
      ∀ x, Relation.ReflTransGen (pstep m) x k → x ∈ treeIds t := by
  intro fuel
  induction fuel with
  | zero => intro k t h; cases h
  | succ fuel ih =>
    intro k t h x hx
    rw [toTree_succ] at h
    cases hlk : tmLookup m k with
    | none => simp [hlk] at h
    | some n =>
      simp only [hlk] at h
      cases hol : optList (n.children.map (toTree m fuel)) with
      | none => simp [hol] at h
      | some cs =>
        simp only [hol, Option.map_some', Option.some.injEq] at h
        subst h
        have hids : treeIds (.node (tnodeData n) cs) = k :: treeIdsList cs := by
          rw [treeIds]
          simp [tnodeData, hid k n hlk]
        rw [hids]
        rcases hx.cases_tail with he | ⟨c, hxc, hck⟩
        · subst he
          exact List.mem_cons_self _ _
        · obtain ⟨np, hnp, hcmem⟩ := hw.ccomplete c k hck
          have hnpn : np = n := by
            rw [hlk] at hnp
            exact (Option.some.injEq _ _).mp hnp.symm
          subst hnpn
          obtain ⟨tc, htc, hco⟩ := optList_mem_input _ cs hol (toTree m fuel c)
            (List.mem_map_of_mem _ hcmem)
          refine List.mem_cons_of_mem _ ?_
          rw [treeIdsList_eq, List.mem_flatten]
          exact ⟨treeIds tc, List.mem_map_of_mem _ htc, ih c tc hco x hxc⟩

theorem rootIds_parentT (m : ThreadMap) (hnd : (tmKeys m).Nodup) (r : String)
    (h : r ∈ rootIds m) : parentT m r = none := by
  unfold rootIds at h
  obtain ⟨p, hp, rfl⟩ := List.mem_map.mp h
  have hf := List.mem_filter.mp hp
  have hl : tmLookup m p.1 = some p.2 := tmLookup_of_mem_nodup m p hnd hf.1
  rw [parentT_lookup, hl, Option.some_bind]
  exact jsTruthy_false_truthyOf _ (by simpa using hf.2)

theorem mem_rootIds (m : ThreadMap) (hnd : (tmKeys m).Nodup) (r : String)
    (hr : r ∈ tmKeys m) (hp : parentT m r = none) : r ∈ rootIds m := by
  obtain ⟨n, hn⟩ := tmLookup_of_mem_keys m r hr
  have hmem : (r, n) ∈ m := mem_of_tmLookup m r n hn
  have hfal : jsTruthy n.parent = false := by
    rw [parentT_lookup, hn, Option.some_bind] at hp
    cases hjt : jsTruthy n.parent with
    | false => rfl
    | true =>
      obtain ⟨g, hg⟩ := (jsTruthy_truthyOf n.parent).mp hjt
      rw [hg] at hp
      cases hp
  unfold rootIds
  refine List.mem_map.mpr ⟨(r, n), ?_, rfl⟩
  rw [List.mem_filter]
  exact ⟨hmem, by simp [hfal]⟩

theorem foldl_link_none (l : List Ann) :
    l.foldl (fun acc a => acc.bind (fun m => match a.references with
      | none => some m
      | some refs => setParentID m (annId a) refs)) none = none := by
  induction l with
  | nil => rfl
  | cons b l ih =>
    rw [List.foldl_cons, Option.none_bind]
    exact ih

theorem fold_tmSet_isSome :
    ∀ (l : List Ann) (start : ThreadMap) (k : String),
      (tmLookup start k).isSome = true →
      (tmLookup (l.foldl
        (fun m a => tmSet m (annId a) { id := annId a, ann := some a }) start) k).isSome =
        true := by
  intro l
  induction l with
  | nil => intro start k h; exact h
  | cons a l ih =>
    intro start k h
    rw [List.foldl_cons]
    refine ih _ k ?_
    rw [tmLookup_tmSet]
    by_cases he : annId a = k
    · rw [if_pos he]; rfl
    · rw [if_neg he]; exact h

theorem linkStep_isSome (m : ThreadMap) (i pid k : String)
    (h : (tmLookup m k).isSome = true) :
    (tmLookup (linkStep m i pid) k).isSome = true := by
  rw [linkStep_lookup]
  obtain ⟨n, hn⟩ := Option.isSome_iff_exists.mp h
  rw [hn]
  by_cases hik : i = k <;> simp [hik]

/-- Every input record's persistent id is a key of the final map. -/
theorem buildThreadMap_keys (anns : List Ann) (m : ThreadMap)
    (h : buildThreadMap anns = some m) :
    ∀ a ∈ anns, annId a ∈ tmKeys m := by
  unfold buildThreadMap at h
  have hm0 : ∀ (l : List Ann) (start : ThreadMap), ∀ a ∈ l,
      (tmLookup (l.foldl
          (fun m a => tmSet m (annId a) { id := annId a, ann := some a }) start)
        (annId a)).isSome = true := by
    intro l
    induction l with
    | nil => intro start a ha; simp at ha
    | cons b l ihl =>
      intro start a ha
      rw [List.foldl_cons]
      rcases List.mem_cons.mp ha with rfl | ha
      · exact fold_tmSet_isSome l _ (annId a) (by rw [tmLookup_tmSet, if_pos rfl]; rfl)
      · exact ihl _ a ha
  have hlink : ∀ (l : List Ann) (m0 mf : ThreadMap) (k : String),
      (tmLookup m0 k).isSome = true →
      l.foldl (fun acc a => acc.bind (fun m => match a.references with
        | none => some m
        | some refs => setParentID m (annId a) refs)) (some m0) = some mf →
      (tmLookup mf k).isSome = true := by
    intro l
    induction l with
    | nil =>
      intro m0 mf k h0 hf
      rw [List.foldl_nil] at hf
      cases hf
      exact h0
    | cons a l ihl =>
      intro m0 mf k h0 hf
      rw [List.foldl_cons] at hf
      cases ha : a.references with
      | none =>
        simp only [ha, Option.some_bind] at hf
        exact ihl m0 mf k h0 hf
      | some refs =>
        simp only [ha, Option.some_bind] at hf
        cases hs : setParentID m0 (annId a) refs with
        | none =>
          rw [hs, foldl_link_none] at hf
          cases hf
        | some m1 =>
          rw [hs] at hf
          refine ihl m1 mf k ?_ hf
          refine setParentIDRev_ind (fun mm => (tmLookup mm k).isSome = true) ?_ ?_
            refs.reverse (annId a) m0 m1 h0 hs
          · intro mm pid hnone hP
            rw [tmLookup_tmSet]
            by_cases he : pid = k
            · rw [if_pos he]; rfl
            · rw [if_neg he]; exact hP
          · intro mm i pid node np hnode hfal hnp hch hP
            exact linkStep_isSome mm i pid k hP
  intro a ha
  have hS := hlink anns _ m (annId a) (hm0 anns [] a ha) h
  obtain ⟨n, hn⟩ := Option.isSome_iff_exists.mp hS
  exact tmLookup_mem_keys m (annId a) n hn

/-- Every key has a root above it: its upward chain ends (accessibility) at a
parentless key. -/
theorem exists_root_anc (m : ThreadMap) (hw : WFC m) :
    ∀ x, x ∈ tmKeys m → ∃ r, r ∈ tmKeys m ∧ parentT m r = none ∧
      Relation.ReflTransGen (pstep m) x r := by
  have hmain : ∀ x, Acc (fun b a => parentT m a = some b) x → x ∈ tmKeys m →
      ∃ r, r ∈ tmKeys m ∧ parentT m r = none ∧ Relation.ReflTransGen (pstep m) x r := by
    intro x hacc
    induction hacc with
    | intro x h ih =>
      intro hx
      cases hpx : parentT m x with
      | none => exact ⟨x, hx, hpx, Relation.ReflTransGen.refl⟩
      | some y =>
        have hy : y ∈ tmKeys m := by
          obtain ⟨n, hn⟩ := tmLookup_of_mem_keys m x hx
          rw [parentT_lookup, hn, Option.some_bind] at hpx
          exact hw.parentKeys x n hn y hpx
        obtain ⟨r, hr1, hr2, hr3⟩ := ih y hpx hy
        exact ⟨r, hr1, hr2, Relation.ReflTransGen.head hpx hr3⟩
  intro x hx
  exact hmain x (hw.acyclic x) hx

def annDup : Ann := { id := some "a", references := some ["", "p"] }
def annS1 : Ann := { id := some "s", created := "1" }
def annS2 : Ann := { id := some "s", created := "2" }

/-- Counterexample to C9 as stated.  (1) An empty-string reference entry
makes the same container a child of the `""` placeholder while it also stays
a root (its recorded parent `""` is falsy), so its whole subtree appears
twice in the returned tree: the id is not unique across the tree.  (2) Two
input annotations carrying the same identifier do not map to one node each:
the second silently overwrites the first in the id map, and no node holding
the first annotation exists in the tree. -/
theorem C9_counterexample :
    (threadAnns [annDup]).map treeIds = some ["p", "a", "", "p", "a"] ∧
      ¬ (["p", "a", "", "p", "a"] : List String).Nodup ∧
      (threadAnns [annS1, annS2]).map (fun t => (treeDatas t).map (fun d => (d.id, d.ann))) =
        some [(none, none), (some "s", some annS2)] :=
  ⟨by decide, by decide, by decide⟩

/-- **C9 amended** (`invariants`): on good input (non-empty reference
entries, no adjacent repeats in a reference chain) the construction returns a
tree in which node ids are unique, and the persistent identifier of every
input annotation (its id, or its tag when the id is absent or empty) labels
exactly one node of the tree.  Two input annotations carrying the same
identifier share that single node (the claim's "in particular" case fails:
the later annotation overwrites the earlier one, see the counterexample),
and for arbitrary reference data an id can label several nodes. -/
theorem C9_unique_ids (anns : List Ann) (hg : goodInput anns = true) :
    ∃ t0, threadAnns anns = some t0 ∧ (treeIds t0).Nodup ∧
      ∀ a ∈ anns, (treeIds t0).count (annId a) = 1 := by
  obtain ⟨t0, ht0⟩ := Option.isSome_iff_exists.mp (threadAnns_isSome anns hg)
  obtain ⟨m1, hb, roots, hol, hshape⟩ := threadAnns_shape anns t0 ht0
  obtain ⟨m1x, hbx, hw1x⟩ := buildThreadMap_wfc anns hg
  have hmx : m1x = m1 := by
    rw [hb] at hbx
    exact (Option.some.injEq _ _).mp hbx.symm
  have hw1 : WFC m1 := hmx ▸ hw1x
  have hw2 := wfc_markCollapsed m1 hw1
  have hid2 := markCollapsed_id m1 (buildThreadMap_id anns m1 hb)
  have hids0 : treeIds t0 = treeIdsList roots := by
    rw [hshape]
    simp [treeIds]
  have hsep : ∀ a ∈ rootIds (markCollapsed m1), ∀ b ∈ rootIds (markCollapsed m1), a ≠ b →
      ∀ x, Relation.ReflTransGen (pstep (markCollapsed m1)) x a →
        Relation.ReflTransGen (pstep (markCollapsed m1)) x b → False := by
    intro a ha b hb2 hne x hxa hxb
    have hpa := rootIds_parentT (markCollapsed m1) hw2.nodupKeys a ha
    have hpb := rootIds_parentT (markCollapsed m1) hw2.nodupKeys b hb2
    rcases rtg_comparable (markCollapsed m1) x a b hxa hxb with hcomp | hcomp
    · exact no_rtg_root (markCollapsed m1) a b hpa hne hcomp
    · exact no_rtg_root (markCollapsed m1) b a hpb (fun he => hne he.symm) hcomp
  obtain ⟨hsound, hnodup⟩ := forest_ids (markCollapsed m1) ((markCollapsed m1).length + 1)
    (toTree_ids_nodup (markCollapsed m1) hw2 hid2 _) (rootIds (markCollapsed m1)) roots
    ((rootIds_sublist _).nodup hw2.nodupKeys) hsep hol
  refine ⟨t0, ht0, hids0 ▸ hnodup, ?_⟩
  intro a ha
  have hk2 : annId a ∈ tmKeys (markCollapsed m1) := by
    rw [tmKeys_markCollapsed]
    exact buildThreadMap_keys anns m1 hb a ha
  obtain ⟨r, hrk, hrp, hrr⟩ := exists_root_anc (markCollapsed m1) hw2 (annId a) hk2
  have hrroot : r ∈ rootIds (markCollapsed m1) := mem_rootIds _ hw2.nodupKeys r hrk hrp
  obtain ⟨tr, htr, htro⟩ := optList_mem_input _ roots hol
    (toTree (markCollapsed m1) ((markCollapsed m1).length + 1) r)
    (List.mem_map_of_mem _ hrroot)
  have hxin := toTree_ids_complete (markCollapsed m1) hw2 hid2 _ r tr htro (annId a) hrr
  have hmem : annId a ∈ treeIds t0 := by
    rw [hids0, treeIdsList_eq, List.mem_flatten]
    exact ⟨treeIds tr, List.mem_map_of_mem _ htr, hxin⟩
  exact List.count_eq_one_of_mem (hids0 ▸ hnodup) hmem

/-- Witness for C9 at a concrete input. -/
theorem C9_unique_ids_witness :
    goodInput [annP, annC] = true ∧
      ∃ t0, threadAnns [annP, annC] = some t0 ∧ (treeIds t0).Nodup ∧
        ∀ a ∈ [annP, annC], (treeIds t0).count (annId a) = 1 :=
  ⟨by decide, C9_unique_ids [annP, annC] (by decide)⟩

end Threading
